import Mathlib

/-! Verification of the KVideo manifest ad-filtering and playback-session engine.

Shallow embedding of the repository's core code:

* `filterM3u8Ad` (src/lib/utils/m3u8-utils.ts) — the M3U8 rewriter.  Strings are
  modelled as `List Char`; JavaScript's `String.prototype` operations
  (`trim`, `includes`, `startsWith`, `split(/\r?\n/)`, `substring(0, lastIndexOf('/')+1)`,
  the global regex replace of `URI="([^"]+)"`) are embedded as the Lean functions below.
  The configured keyword list (read from the environment, defaulting to `['/adjump/']`)
  is passed as an explicit parameter.
* the HLS.js fatal-error retry handler of `useHlsPlayer` (src/unnamed/part_000),
* the `AdFilterLoader` interception hook (src/unnamed/part_000),
* `processMasterPlaylist` (src/unnamed/part_000), with network `fetch` modelled as an
  explicit `List Char → Option (List Char)` oracle and blob materialization as a
  deterministic store (the concurrent `Promise.all` is serialized; §5 of the spec
  guarantees completion order does not affect the result).

The external WHATWG `URL` API (`new URL(u).origin`, relative resolution) is modelled
for ordinary `http`/`https` URLs; `filterM3u8Ad` itself swallows its parse failures.
-/

namespace KVideo

/-- JavaScript whitespace recognised by `String.prototype.trim` (the common ASCII part;
exotic unicode space characters are not relevant to any claim). -/
def isWSChar (c : Char) : Bool :=
  c = ' ' || c = '\t' || c = '\n' || c = '\r' || c = '\x0b' || c = '\x0c'

/-- Model of `String.prototype.trim`. -/
def trim (l : List Char) : List Char :=
  ((l.dropWhile isWSChar).reverse.dropWhile isWSChar).reverse

/-- Model of `String.prototype.includes`: `containsStr hay needle` is true when
`needle` occurs contiguously inside `hay`. -/
def containsStr : List Char → List Char → Bool
  | hay, needle =>
    needle.isPrefixOf hay ||
      match hay with
      | [] => false
      | _ :: t => containsStr t needle

/-- Model of `content.split(/\r?\n/)`: split at each `\n`, consuming one `\r`
immediately before it. -/
def splitLines : List Char → List (List Char)
  | [] => [[]]
  | '\r' :: '\n' :: rest => [] :: splitLines rest
  | '\n' :: rest => [] :: splitLines rest
  | c :: rest =>
    match splitLines rest with
    | [] => [[c]]
    | l :: ls => (c :: l) :: ls

/-- `baseUrl.substring(0, baseUrl.lastIndexOf('/') + 1)`: everything up to and
including the last `/` (empty when there is no `/`). -/
def basePathOf (u : List Char) : List Char :=
  (u.reverse.dropWhile (fun c => c ≠ '/')).reverse

/-- Model of `new URL(baseUrl).origin` with the surrounding `try`/`catch ⟶ ''`
(src/lib/utils/m3u8-utils.ts lines 24-27), for ordinary `http(s)` base URLs:
scheme plus host.  Parse failures and non-http schemes yield `''`. -/
def originOf (u : List Char) : List Char :=
  if ("http://".data).isPrefixOf u then
    let host := (u.drop 7).takeWhile (fun c => c ≠ '/' && c ≠ '?' && c ≠ '#')
    if host = [] then [] else ("http://").data ++ host
  else if ("https://".data).isPrefixOf u then
    let host := (u.drop 8).takeWhile (fun c => c ≠ '/' && c ≠ '?' && c ≠ '#')
    if host = [] then [] else ("https://").data ++ host
  else []

/-- The duration tag prefix `#EXTINF:`. -/
def extinfLit : List Char := "#EXTINF:".data

/-- The discontinuity tag `#EXT-X-DISCONTINUITY`. -/
def discontLit : List Char := "#EXT-X-DISCONTINUITY".data

/-- The quoted-URI attribute marker `URI="`. -/
def uriLit : List Char := ("URI=" ++ "\"").data

/-- The default ad keyword list used when no keywords are configured
(src/lib/utils/m3u8-utils.ts line 20). -/
def defaultKeywords : List (List Char) := ["/adjump/".data]

/-- A line matches the ad rule when any configured keyword occurs in its trimmed text. -/
def matchLine (kws : List (List Char)) (line : List Char) : Bool :=
  kws.any fun k => containsStr (trim line) k

/-- The backtracking metadata test of the ad branch: the popped line is a duration
tag or a discontinuity tag (src/lib/utils/m3u8-utils.ts lines 48-52). -/
def isMetaStored (l : List Char) : Bool :=
  extinfLit.isPrefixOf (trim l) || trim l == discontLit

/-- Try to read `URI="body"` (with a nonempty, quote-free body and a closing quote)
at the head of `l`; return the body and the remainder after the closing quote. -/
def uriBody (l : List Char) : Option (List Char × List Char) :=
  if uriLit.isPrefixOf l then
    let rest := l.drop 5
    let body := rest.takeWhile (fun c => c ≠ '"')
    if body = [] then none
    else if (rest.drop body.length).head? = some '"' then
      some (body, rest.drop (body.length + 1))
    else none
  else none

/-- Model of `line.replace(/URI="([^"]+)"/g, (m, uri) => uri.startsWith('http') ||
uri.startsWith('/') ? m : `URI="${basePath}${uri}"`)`
(src/lib/utils/m3u8-utils.ts lines 77-80): every non-overlapping leftmost match
of `URI="([^"]+)"` has its body prefixed with `bp` unless the body is absolute
or root-relative. -/
def replaceURIs (bp : List Char) : List Char → List Char
  | [] => []
  | c :: rest =>
    match h : uriBody (c :: rest) with
    | some (body, rem) =>
      (if ("http".data).isPrefixOf body || ("/".data).isPrefixOf body then
        uriLit ++ body ++ ['"']
      else
        uriLit ++ bp ++ body ++ ['"']) ++ replaceURIs bp rem
    | none => c :: replaceURIs bp rest
termination_by l => l.length
decreasing_by
  · unfold uriBody at h
    split at h
    case isTrue hp =>
      dsimp only at h
      split at h
      case isTrue hb => simp at h
      case isFalse hb =>
        split at h
        case isTrue hq =>
          simp only [Option.some.injEq, Prod.mk.injEq] at h
          obtain ⟨h1, h2⟩ := h
          subst h1
          subst h2
          simp only [List.length_drop, List.length_cons]
          omega
        case isFalse hq => simp at h
    case isFalse hp => simp at h
  · simp

/-- One iteration of the rewriting loop of `filterM3u8Ad`
(src/lib/utils/m3u8-utils.ts lines 37-93), acting on the output buffer with the
most recently emitted line at the head. -/
def processLine (kws : List (List Char)) (hasAd : Bool) (bp orig : List Char)
    (acc : List (List Char)) (line : List Char) : List (List Char) :=
  let t := trim line
  if hasAd && kws.any (fun k => containsStr t k) then
    acc.dropWhile isMetaStored
  else if t = discontLit then
    if hasAd then line :: acc else acc
  else if t = [] || ("http".data).isPrefixOf t || ("blob:".data).isPrefixOf t then
    line :: acc
  else if t.head? = some '#' then
    if containsStr t uriLit then replaceURIs bp line :: acc else line :: acc
  else if t.head? = some '/' then
    (if orig = [] then t else orig ++ t) :: acc
  else
    (bp ++ t) :: acc

/-- The rewriting loop over all lines. -/
def filterLoop (kws : List (List Char)) (hasAd : Bool) (bp orig : List Char) :
    List (List Char) → List (List Char) → List (List Char)
  | acc, [] => acc
  | acc, l :: ls => filterLoop kws hasAd bp orig (processLine kws hasAd bp orig acc l) ls

/-- The global ad pre-scan `keywords.some(k => content.includes(k))`
(src/lib/utils/m3u8-utils.ts line 32). -/
def hasAdSignal (kws : List (List Char)) (content : List Char) : Bool :=
  kws.any fun k => containsStr content k

/-- The list of output lines of `filterM3u8Ad` (the `processedLines` array just
before the final `join('\n')`). -/
def filterLinesOut (kws : List (List Char)) (content baseUrl : List Char) :
    List (List Char) :=
  if content = [] then []
  else
    (filterLoop kws (hasAdSignal kws content) (basePathOf baseUrl) (originOf baseUrl)
      [] (splitLines content)).reverse

/-- Model of `processedLines.join('\n')`. -/
def joinLines : List (List Char) → List Char
  | [] => []
  | [l] => l
  | l :: ls => l ++ '\n' :: joinLines ls

/-- `filterM3u8Ad(content, baseUrl)` (src/lib/utils/m3u8-utils.ts lines 14-96),
with the configured keyword list as an explicit first argument. -/
def filterM3u8Ad (kws : List (List Char)) (content baseUrl : List Char) : List Char :=
  joinLines (filterLinesOut kws content baseUrl)

/-- The single-line rewrite applied by `filterM3u8Ad` to every line it emits:
lines kept verbatim, quoted-URI attribute rewriting, origin prefixing for
root-relative URIs, base-path prefixing for relative URIs. -/
def rewriteLine (bp orig : List Char) (line : List Char) : List Char :=
  let t := trim line
  if t = discontLit then line
  else if t = [] || ("http".data).isPrefixOf t || ("blob:".data).isPrefixOf t then line
  else if t.head? = some '#' then
    if containsStr t uriLit then replaceURIs bp line else line
  else if t.head? = some '/' then
    if orig = [] then t else orig ++ t
  else bp ++ t

/-! ## Failure-recovery policy of `useHlsPlayer` (src/unnamed/part_000, lines 158-192)

The `hls.on(Hls.Events.ERROR, ...)` handler with its two per-session counters
`networkErrorRetries` and `mediaErrorRetries`, expressed as a state machine that
emits the commands it issues to the backend. -/

/-- The error classes of `Hls.ErrorTypes` distinguished by the handler. -/
inductive HlsErrType
  | network
  | media
  | other
deriving DecidableEq

/-- One event from the backend's error feed. -/
structure HlsErrorData where
  etype : HlsErrType
  fatal : Bool
  details : Option (List Char)

/-- The commands the handler issues: `hls.startLoad()`, `hls.recoverMediaError()`,
`onError(message)` and `hls.destroy()`. -/
inductive HlsCmd
  | startLoad
  | recoverMediaError
  | report (msg : List Char)
  | destroy
deriving DecidableEq

/-- Per-session retry counters (`networkErrorRetries`, `mediaErrorRetries`). -/
structure RetryState where
  networkErrorRetries : Nat
  mediaErrorRetries : Nat
deriving DecidableEq

/-- `const MAX_RETRIES = 3`. -/
def maxRetries : Nat := 3

/-- The user-facing network failure message. -/
def networkErrMsg : List Char := "网络错误：无法加载视频流".data

/-- The user-facing media failure message. -/
def mediaErrMsg : List Char := "媒体错误：视频格式不支持或已损坏".data

/-- `致命错误：${data.details || '未知错误'}`; an absent or empty (falsy) details
string yields the unknown-error placeholder. -/
def genericErrMsg (details : Option (List Char)) : List Char :=
  "致命错误：".data ++
    match details with
    | some d => if d = [] then "未知错误".data else d
    | none => "未知错误".data

/-- One step of the fatal-error handler. -/
def onHlsError (s : RetryState) (e : HlsErrorData) : RetryState × List HlsCmd :=
  if e.fatal then
    match e.etype with
    | .network =>
      let n := s.networkErrorRetries + 1
      if n ≤ maxRetries then
        ({ s with networkErrorRetries := n }, [.startLoad])
      else
        ({ s with networkErrorRetries := n }, [.report networkErrMsg, .destroy])
    | .media =>
      let m := s.mediaErrorRetries + 1
      if m ≤ maxRetries then
        ({ s with mediaErrorRetries := m }, [.recoverMediaError])
      else
        ({ s with mediaErrorRetries := m }, [.report mediaErrMsg, .destroy])
    | .other => (s, [.report (genericErrMsg e.details), .destroy])
  else (s, [])

/-- Feed a list of events through the handler, collecting the issued commands. -/
def runHlsErrors : RetryState → List HlsErrorData → RetryState × List HlsCmd
  | s, [] => (s, [])
  | s, e :: es =>
    let (s', cmds) := onHlsError s e
    let (s'', cmds') := runHlsErrors s' es
    (s'', cmds ++ cmds')

/-! ## The `AdFilterLoader` interception hook (src/unnamed/part_000, lines 47-65)

`load` wraps `callbacks.onSuccess` when ad filtering is enabled and the request is
a manifest- or level-class request.  The wrapper filters string bodies (swallowing
any exception from the filter) and then invokes the original callback exactly once.
The filter is abstracted as `filt : List Char → Option (List Char)`; `none`
models a thrown exception (caught by the wrapper's `try`/`catch`). -/

/-- Request context classes distinguished by the hook. -/
inductive HlsCtxType
  | manifest
  | level
  | fragment
deriving DecidableEq

/-- A response body: a string (playlist text) or a non-string body. -/
inductive RespData
  | str (s : List Char)
  | bin
deriving DecidableEq

/-- The data the (possibly wrapped) `onSuccess` callback hands to the original
callback for a response body `d`. -/
def interceptedData (adFilter : Bool) (ctype : HlsCtxType)
    (filt : List Char → Option (List Char)) (d : RespData) : RespData :=
  if adFilter && (ctype = HlsCtxType.manifest || ctype = HlsCtxType.level) then
    match d with
    | .str s =>
      match filt s with
      | some r => .str r
      | none => .str s
    | .bin => .bin
  else d

/-- The sequence of invocations of the original `onSuccess` callback produced by
one successful load, each entry carrying the response data it receives. -/
def interceptedCalls (adFilter : Bool) (ctype : HlsCtxType)
    (filt : List Char → Option (List Char)) (d : RespData) : List RespData :=
  [interceptedData adFilter ctype filt d]

/-! ## `processMasterPlaylist` (src/unnamed/part_000, lines 201-279)

The native-HLS resolver: fetch the master playlist; a leaf playlist is filtered and
materialized directly; a master playlist has each relative child (an
`#EXT-X-MEDIA` quoted URI, or the playlist line following `#EXT-X-STREAM-INF`)
fetched, filtered and materialized, with the child's reference substituted.  A
failed child fetch leaves the child's line unchanged.  `fetch` is an explicit
oracle (`none` = network failure / thrown exception) and a materialized blob is
identified by its creation index; the store of created blob contents is returned
alongside.  The `Promise.all` fan-out is serialized in line order (§5 of the
spec: sibling completion order does not affect the result). -/

/-- The stream-info marker `#EXT-X-STREAM-INF`. -/
def streamInfLit : List Char := "#EXT-X-STREAM-INF".data

/-- The alternate-rendition marker `#EXT-X-MEDIA`. -/
def mediaTagLit : List Char := "#EXT-X-MEDIA".data

/-- The blob URL handed out for the `n`-th materialized artifact
(model of `URL.createObjectURL`). -/
def blobName (n : Nat) : List Char := "blob:local/".data ++ Nat.toDigits 10 n

/-- Model of `new URL(rel, base).toString()` for the simple relative references the
resolver meets: root-relative references resolve against the origin, other
relative references against the base path. -/
def resolveUrlModel (base rel : List Char) : List Char :=
  if ("http".data).isPrefixOf rel then rel
  else if rel.head? = some '/' then originOf base ++ rel
  else basePathOf base ++ rel

/-- First regex match of `URI="([^"]+)"` in `l` (model of `trimmedLine.match(...)`),
returning the body. -/
def firstUriBody : List Char → Option (List Char)
  | [] => none
  | c :: rest =>
    match uriBody (c :: rest) with
    | some (body, _) => some body
    | none => firstUriBody rest

/-- Replace the first occurrence of `pat` in `l` by `repl`
(model of `String.prototype.replace` with a string pattern). -/
def replaceFirst (l pat repl : List Char) : List Char :=
  match l with
  | [] => []
  | c :: rest =>
    if pat.isPrefixOf (c :: rest) then repl ++ (c :: rest).drop pat.length
    else c :: replaceFirst rest pat repl

/-- Process one master-playlist line (the body of the `lines.map` callback),
given the previous raw line, the keyword list, the fetch oracle, the master URL
and the number of blobs created so far.  Returns the emitted line and the list of
newly materialized child playlists (their filtered contents). -/
def processMasterLine (kws : List (List Char)) (fetch : List Char → Option (List Char))
    (masterSrc : List Char) (count : Nat) (prevLine line : List Char) :
    List Char × List (List Char) :=
  let trimmedLine := trim line
  if mediaTagLit.isPrefixOf trimmedLine && containsStr trimmedLine uriLit then
    match firstUriBody trimmedLine with
    | some relativeUri =>
      if ¬ ("http".data).isPrefixOf relativeUri then
        let absoluteUrl := resolveUrlModel masterSrc relativeUri
        match fetch absoluteUrl with
        | some subContent =>
          let filteredSub := filterM3u8Ad kws subContent absoluteUrl
          (replaceFirst line (uriLit ++ relativeUri ++ ['"']) (uriLit ++ blobName count ++ ['"']),
            [filteredSub])
        | none => (line, [])
      else (line, [])
    | none => (line, [])
  else if streamInfLit.isPrefixOf (trim prevLine) && trimmedLine ≠ [] &&
      trimmedLine.head? ≠ some '#' then
    if ¬ ("http".data).isPrefixOf trimmedLine then
      let absoluteUrl := resolveUrlModel masterSrc trimmedLine
      match fetch absoluteUrl with
      | some subContent =>
        let filteredSub := filterM3u8Ad kws subContent absoluteUrl
        (blobName count, [filteredSub])
      | none => (line, [])
    else (line, [])
  else (line, [])

/-- Process all master-playlist lines in order, threading the previous line and
the blob store. -/
def processMasterLines (kws : List (List Char)) (fetch : List Char → Option (List Char))
    (masterSrc : List Char) : List Char → List (List Char) → List (List Char) →
    List (List Char) × List (List Char)
  | _, store, [] => ([], store)
  | prevLine, store, l :: ls =>
    let (outLine, newBlobs) := processMasterLine kws fetch masterSrc store.length prevLine l
    let (outRest, store') := processMasterLines kws fetch masterSrc l (store ++ newBlobs) ls
    (outLine :: outRest, store')

/-- The successful result of resolving a master playlist: the entry-point blob URL
and all created blob URLs (`createdBlobs`, children first, master last). -/
structure MasterOut where
  masterBlobUrl : List Char
  allBlobs : List (List Char)
deriving DecidableEq

/-- `processMasterPlaylist(src)`: `none` models the rejected promise (master fetch
failure); a leaf playlist yields `Sum.inl` (a bare blob URL), a master playlist
yields `Sum.inr` with the entry point and all tracked blob URLs.  The second
component is the store of materialized artifact contents, in creation order. -/
def processMasterPlaylist (kws : List (List Char))
    (fetch : List Char → Option (List Char)) (src : List Char) :
    Option (Sum (List Char) MasterOut) × List (List Char) :=
  match fetch src with
  | none => (none, [])
  | some masterContent =>
    if ¬ containsStr masterContent streamInfLit then
      let filtered := filterM3u8Ad kws masterContent src
      (some (Sum.inl (blobName 0)), [filtered])
    else
      let lines := splitLines masterContent
      let (outLines, store) := processMasterLines kws fetch src [] [] lines
      let finalMasterContent := joinLines outLines
      let masterUrl := blobName store.length
      (some (Sum.inr (MasterOut.mk masterUrl
          ((List.range store.length).map blobName ++ [masterUrl]))),
        store ++ [finalMasterContent])

/-! ### `ltrim` / `rtrim` decomposition of `trim` -/

/-- Left half of `trim`: drop leading whitespace. -/
def ltrim (l : List Char) : List Char := l.dropWhile isWSChar

/-- Right half of `trim`: drop trailing whitespace. -/
def rtrim (l : List Char) : List Char := (l.reverse.dropWhile isWSChar).reverse

/-! ### Line classification and stored-line facts -/

/-- A duration tag: trimmed line starts with `#EXTINF:`. -/
def isExtLine (l : List Char) : Bool := extinfLit.isPrefixOf (trim l)

/-- A discontinuity tag: trimmed line equals `#EXT-X-DISCONTINUITY`. -/
def isDiscLine (l : List Char) : Bool := trim l == discontLit

/-- A playable line: nonblank and not a tag. -/
def isPlayableLine (l : List Char) : Bool :=
  !(trim l).isEmpty && !((trim l).head? == some '#')

/-! ### Duration-tag well-formedness and the no-dangling-metadata property -/

/-- Input well-formedness: every duration tag is immediately followed by a
playable line (and the document does not end in a duration tag). -/
def wfExtinf : List (List Char) → Bool
  | [] => true
  | [a] => !isExtLine a
  | a :: b :: r => (!isExtLine a || isPlayableLine b) && wfExtinf (b :: r)

/-- Some line of the list is playable. -/
def hasPlayable (ls : List (List Char)) : Bool := ls.any isPlayableLine

/-- The no-dangling-metadata property of the claim: no duration tag is
immediately followed by another duration tag, by end-of-document, or by a
discontinuity tag with nothing playable after it. -/
def danglingFree : List (List Char) → Bool
  | [] => true
  | [a] => !isExtLine a
  | a :: b :: r =>
    (!isExtLine a || (!isExtLine b && (!isDiscLine b || hasPlayable r))) &&
      danglingFree (b :: r)

/-- Adjacent-pairs part of `wfExtinf`, without the final-line condition. -/
def pairsOut : List (List Char) → Bool
  | [] => true
  | [_] => true
  | a :: b :: r => (!isExtLine a || isPlayableLine b) && pairsOut (b :: r)

/-- The final line is not a duration tag. -/
def lastNE (ls : List (List Char)) : Bool :=
  match ls.getLast? with
  | none => true
  | some a => !isExtLine a

/-- Adjacent-pairs condition on the accumulator (newest line first). -/
def pairsOK : List (List Char) → Bool
  | [] => true
  | [_] => true
  | a :: b :: r => (!isExtLine b || isPlayableLine a) && pairsOK (b :: r)

/-- The newest accumulator line is not a duration tag. -/
def headNE : List (List Char) → Bool
  | [] => true
  | a :: _ => !isExtLine a

/-! ### C2: the hybrid discontinuity policy -/

/-- A later ad line can reach back through the list head: the head matches the
ad rule, or it is metadata (duration/discontinuity) and an ad is reachable
beyond it.  This is exactly the condition under which the backtrack triggered
by that ad can pop a line pushed just before this list. -/
def adjReach (kws : List (List Char)) : List (List Char) → Bool
  | [] => false
  | l :: ls => matchLine kws l || (isMetaStored l && adjReach kws ls)

/-- The C7 scenario's master playlist URL. -/
def c7src : List Char := ("http://h/m/master.m3u8").data

/-- The C7 scenario's master playlist: three stream-info tags, each followed by a
relative variant playlist line. -/
def c7masterContent : List Char :=
  ("#EXT-X-STREAM-INF:BANDWIDTH=1\nv0.m3u8\n#EXT-X-STREAM-INF:BANDWIDTH=2\nv1.m3u8\n#EXT-X-STREAM-INF:BANDWIDTH=3\nv2.m3u8").data

/-- The C7 scenario's fetch oracle: the master and the first two variants
succeed, the third variant's fetch fails. -/
def c7fetch (url : List Char) : Option (List Char) :=
  if url = c7src then some c7masterContent
  else if url = ("http://h/m/v0.m3u8").data then some ("#EXTINF:5\nseg0.ts").data
  else if url = ("http://h/m/v1.m3u8").data then some ("#EXTINF:5\nseg1.ts").data
  else none

/-- The C7 scenario's resolver run. -/
def c7out : Option (Sum (List Char) MasterOut) × List (List Char) :=
  processMasterPlaylist defaultKeywords c7fetch c7src

theorem uriBody_spec {l body rem : List Char} (h : uriBody l = some (body, rem)) :
    uriLit.isPrefixOf l = true ∧ body ≠ [] ∧
      body = (l.drop 5).takeWhile (fun c => c ≠ '"') ∧
      rem = (l.drop 5).drop (body.length + 1) := by
  unfold uriBody at h
  split at h
  case isTrue hp =>
    dsimp only at h
    split at h
    case isTrue hb => simp at h
    case isFalse hb =>
      split at h
      case isTrue hq =>
        simp only [Option.some.injEq, Prod.mk.injEq] at h
        obtain ⟨h1, h2⟩ := h
        subst h1
        exact ⟨hp, hb, rfl, h2.symm⟩
      case isFalse hq => simp at h
  case isFalse hp => simp at h

theorem uriBody_rem_length {l body rem : List Char}
    (h : uriBody l = some (body, rem)) : rem.length < l.length := by
  obtain ⟨hp, hb, _, hrem⟩ := uriBody_spec h
  have h5 : 5 ≤ l.length := by
    have hle := List.IsPrefix.length_le (List.isPrefixOf_iff_prefix.mp hp)
    have hu : uriLit.length = 5 := rfl
    omega
  have hb1 : 1 ≤ body.length := by
    cases body with
    | nil => exact absurd rfl hb
    | cons a as => simp
  subst hrem
  simp only [List.length_drop]
  omega

/-! ### Basic facts about `containsStr`, `isPrefixOf` and `trim` -/

theorem isPrefixOf_iff (n h : List Char) :
    n.isPrefixOf h = true ↔ ∃ t, h = n ++ t := by
  rw [List.isPrefixOf_iff_prefix]
  constructor
  · rintro ⟨t, rfl⟩
    exact ⟨t, rfl⟩
  · rintro ⟨t, rfl⟩
    exact ⟨t, rfl⟩

theorem isPrefixOf_head {n h : List Char} (hp : n.isPrefixOf h = true) (hn : n ≠ []) :
    h.head? = n.head? := by
  obtain ⟨t, rfl⟩ := (isPrefixOf_iff n h).mp hp
  cases n with
  | nil => exact absurd rfl hn
  | cons a as => rfl

theorem containsStr_iff (h n : List Char) :
    containsStr h n = true ↔ ∃ s t, h = s ++ n ++ t := by
  induction h with
  | nil =>
    rw [containsStr]
    simp only [Bool.or_false]
    rw [isPrefixOf_iff]
    constructor
    · rintro ⟨t, ht⟩
      exact ⟨[], t, by simpa using ht⟩
    · rintro ⟨s, t, hst⟩
      rw [List.append_assoc] at hst
      obtain ⟨hs, hnt⟩ := List.append_eq_nil.mp hst.symm
      exact ⟨t, by simp [hnt]⟩
  | cons a h ih =>
    rw [containsStr]
    simp only [Bool.or_eq_true]
    constructor
    · rintro (hp | hc)
      · obtain ⟨t, ht⟩ := (isPrefixOf_iff _ _).mp hp
        exact ⟨[], t, by simpa using ht⟩
      · obtain ⟨s, t, hst⟩ := ih.mp hc
        exact ⟨a :: s, t, by simp [hst]⟩
    · rintro ⟨s, t, hst⟩
      cases s with
      | nil =>
        left
        exact (isPrefixOf_iff _ _).mpr ⟨t, by simpa using hst⟩
      | cons b s' =>
        right
        refine ih.mpr ⟨s', t, ?_⟩
        simpa using congrArg List.tail hst

theorem containsStr_parts (s n t : List Char) : containsStr (s ++ n ++ t) n = true :=
  (containsStr_iff _ _).mpr ⟨s, t, rfl⟩

theorem containsStr_outer {l k : List Char} (s t : List Char)
    (hc : containsStr l k = true) : containsStr (s ++ l ++ t) k = true := by
  obtain ⟨a, b, rfl⟩ := (containsStr_iff _ _).mp hc
  refine (containsStr_iff _ _).mpr ⟨s ++ a, b ++ t, by simp⟩

theorem containsStr_nil_right (h : List Char) : containsStr h [] = true :=
  (containsStr_iff _ _).mpr ⟨[], h, rfl⟩

theorem containsStr_head_mem {l k : List Char} (hc : containsStr l k = true)
    (c : Char) (hck : c ∈ k) : c ∈ l := by
  obtain ⟨s, t, rfl⟩ := (containsStr_iff _ _).mp hc
  simp [hck]

theorem trim_eq_rtrim_ltrim (l : List Char) : trim l = rtrim (ltrim l) := rfl

theorem ltrim_decomp (l : List Char) :
    ∃ w, l = w ++ ltrim l ∧ ∀ c ∈ w, isWSChar c = true :=
  ⟨l.takeWhile isWSChar, (List.takeWhile_append_dropWhile isWSChar l).symm,
    fun _ hc => List.mem_takeWhile_imp hc⟩

theorem rtrim_decomp (l : List Char) :
    ∃ w, l = rtrim l ++ w ∧ ∀ c ∈ w, isWSChar c = true := by
  obtain ⟨w, hw, hws⟩ := ltrim_decomp l.reverse
  refine ⟨w.reverse, ?_, fun c hc => hws c (List.mem_reverse.mp hc)⟩
  have := congrArg List.reverse hw
  simpa [rtrim, ltrim] using this

theorem trim_decomp (l : List Char) :
    ∃ w₁ w₂, l = w₁ ++ trim l ++ w₂ ∧ (∀ c ∈ w₁, isWSChar c = true) ∧
      ∀ c ∈ w₂, isWSChar c = true := by
  obtain ⟨w₁, hw₁, hws₁⟩ := ltrim_decomp l
  obtain ⟨w₂, hw₂, hws₂⟩ := rtrim_decomp (ltrim l)
  refine ⟨w₁, w₂, ?_, hws₁, hws₂⟩
  rw [trim_eq_rtrim_ltrim, List.append_assoc, ← hw₂]
  exact hw₁

theorem head?_dropWhile_not {α : Type} (p : α → Bool) (l : List α) {a : α}
    (h : (l.dropWhile p).head? = some a) : p a = false := by
  induction l with
  | nil => simp [List.dropWhile] at h
  | cons b t ih =>
    rw [List.dropWhile_cons] at h
    by_cases hb : p b
    · exact ih (by simpa [hb] using h)
    · rw [if_neg (by simp [hb])] at h
      simp only [List.head?_cons, Option.some.injEq] at h
      subst h
      exact Bool.eq_false_iff.mpr hb

theorem ltrim_head_not_ws {l : List Char} {a : Char}
    (h : (ltrim l).head? = some a) : isWSChar a = false :=
  head?_dropWhile_not isWSChar l h

theorem ltrim_eq_self {l : List Char}
    (h : ∀ a, l.head? = some a → isWSChar a = false) : ltrim l = l := by
  cases l with
  | nil => rfl
  | cons a t =>
    rw [ltrim, List.dropWhile_cons, h a rfl]
    simp

theorem rtrim_getLast_not_ws {l : List Char} {a : Char}
    (h : (rtrim l).getLast? = some a) : isWSChar a = false := by
  rw [rtrim, List.getLast?_reverse] at h
  exact head?_dropWhile_not isWSChar l.reverse h

theorem rtrim_eq_self {l : List Char}
    (h : ∀ a, l.getLast? = some a → isWSChar a = false) : rtrim l = l := by
  have : ltrim l.reverse = l.reverse := by
    refine ltrim_eq_self fun a ha => h a ?_
    rwa [← List.getLast?_reverse l.reverse, List.reverse_reverse] at ha
  rw [rtrim]
  rw [ltrim] at this
  rw [this, List.reverse_reverse]

theorem rtrim_prefix (l : List Char) : ∃ w, l = rtrim l ++ w := by
  obtain ⟨w, hw, _⟩ := rtrim_decomp l
  exact ⟨w, hw⟩

theorem ltrim_nil_of_rtrim_nil {l : List Char} (h : rtrim (ltrim l) = []) :
    ltrim l = [] := by
  obtain ⟨w, hw, hws⟩ := rtrim_decomp (ltrim l)
  rw [h] at hw
  cases hl : ltrim l with
  | nil => rfl
  | cons a t =>
    have ha : (ltrim l).head? = some a := by rw [hl]; rfl
    have h1 := ltrim_head_not_ws ha
    rw [hw] at ha
    simp only [List.nil_append] at ha
    have : a ∈ w := by
      cases w with
      | nil => simp at ha
      | cons b bs =>
        simp only [List.head?_cons, Option.some.injEq] at ha
        simp [ha]
    rw [hws a this] at h1
    exact absurd h1 (by simp)

theorem trim_head? (l : List Char) : (trim l).head? = (ltrim l).head? := by
  rw [trim_eq_rtrim_ltrim]
  cases hr : rtrim (ltrim l) with
  | nil => rw [ltrim_nil_of_rtrim_nil hr]
  | cons a t =>
    obtain ⟨w, hw⟩ := rtrim_prefix (ltrim l)
    rw [hw, hr]
    rfl

theorem trim_head_not_ws {l : List Char} {a : Char}
    (h : (trim l).head? = some a) : isWSChar a = false := by
  rw [trim_head? l] at h
  exact ltrim_head_not_ws h

theorem trim_getLast_not_ws {l : List Char} {a : Char}
    (h : (trim l).getLast? = some a) : isWSChar a = false := by
  rw [trim_eq_rtrim_ltrim] at h
  exact rtrim_getLast_not_ws h

theorem trim_idem (l : List Char) : trim (trim l) = trim l := by
  rw [trim_eq_rtrim_ltrim (trim l), ltrim_eq_self (fun a ha => trim_head_not_ws ha)]
  exact rtrim_eq_self fun a ha => trim_getLast_not_ws ha

/-! ### Prefix and append case analysis -/

theorem isPrefixOf_append_left {s x : List Char} (b : List Char)
    (h : s.isPrefixOf x = true) : s.isPrefixOf (x ++ b) = true := by
  obtain ⟨t, rfl⟩ := (isPrefixOf_iff s x).mp h
  exact (isPrefixOf_iff ..).mpr ⟨t ++ b, by simp⟩

theorem isPrefixOf_append_cases {s x b : List Char}
    (h : s.isPrefixOf (x ++ b) = true) :
    s.isPrefixOf x = true ∨ ∃ s₂, s = x ++ s₂ ∧ s₂ ≠ [] ∧ s₂.isPrefixOf b = true := by
  obtain ⟨t, ht⟩ := (isPrefixOf_iff _ _).mp h
  rcases List.append_eq_append_iff.mp ht with ⟨a', ha1, ha2⟩ | ⟨c', hc1, hc2⟩
  · cases a' with
    | nil => exact Or.inl ((isPrefixOf_iff _ _).mpr ⟨[], by simpa using ha1.symm⟩)
    | cons z zs =>
      refine Or.inr ⟨z :: zs, ha1, by simp, (isPrefixOf_iff _ _).mpr ⟨t, ?_⟩⟩
      simpa using ha2
  · exact Or.inl ((isPrefixOf_iff _ _).mpr ⟨c', hc1⟩)

theorem isPrefixOf_append_head {s x b : List Char} {c : Char}
    (hb : b.head? = some c) (hcs : c ∉ s) :
    s.isPrefixOf (x ++ b) = s.isPrefixOf x := by
  cases hx : s.isPrefixOf x with
  | true => exact isPrefixOf_append_left b hx
  | false =>
    cases hxb : s.isPrefixOf (x ++ b) with
    | false => rfl
    | true =>
    exfalso
    rcases isPrefixOf_append_cases hxb with h1 | ⟨s₂, hs, hne₂, hpb⟩
    · rw [h1] at hx
      exact absurd hx (by simp)
    · have hh : b.head? = s₂.head? := isPrefixOf_head hpb hne₂
      have : c ∈ s₂ := by
        cases s₂ with
        | nil => exact absurd rfl hne₂
        | cons z zs =>
          rw [hb] at hh
          simp only [List.head?_cons, Option.some.injEq] at hh
          simp [hh]
      exact absurd (hs ▸ List.mem_append_right x this) hcs

theorem isPrefixOf_append_ws {s x w : List Char}
    (hw : ∀ c ∈ w, isWSChar c = true)
    (hlast : ∀ a, s.getLast? = some a → isWSChar a = false) :
    s.isPrefixOf (x ++ w) = s.isPrefixOf x := by
  cases hx : s.isPrefixOf x with
  | true => exact isPrefixOf_append_left w hx
  | false =>
    cases hxw : s.isPrefixOf (x ++ w) with
    | false => rfl
    | true =>
    exfalso
    rcases isPrefixOf_append_cases hxw with h1 | ⟨s₂, hs, hne₂, hpw⟩
    · rw [h1] at hx
      exact absurd hx (by simp)
    · obtain ⟨t, rfl⟩ := (isPrefixOf_iff _ _).mp hpw
      obtain ⟨a, ha⟩ : ∃ a, s₂.getLast? = some a := by
        cases s₂ with
        | nil => exact absurd rfl hne₂
        | cons z zs => exact ⟨(z :: zs).getLast (by simp), List.getLast?_eq_getLast _ _⟩
      have hmem : a ∈ s₂ := List.mem_of_mem_getLast? ha
      have hws : isWSChar a = true := hw a (List.mem_append_left t hmem)
      have hsl : s.getLast? = some a := by
        rw [hs, List.getLast?_append, ha]
        rfl
      rw [hlast a hsl] at hws
      exact absurd hws (by simp)

theorem isPrefixOf_trim (s l : List Char)
    (hlast : ∀ a, s.getLast? = some a → isWSChar a = false) :
    s.isPrefixOf (trim l) = s.isPrefixOf (ltrim l) := by
  obtain ⟨w, hw, hws⟩ := rtrim_decomp (ltrim l)
  rw [trim_eq_rtrim_ltrim]
  conv_rhs => rw [hw]
  exact (isPrefixOf_append_ws hws hlast).symm

/-! ### `containsStr` and trimming -/

theorem containsStr_ltrim {l k : List Char}
    (hhead : ∀ a, k.head? = some a → isWSChar a = false)
    (hc : containsStr l k = true) : containsStr (ltrim l) k = true := by
  induction l with
  | nil => exact hc
  | cons a t ih =>
    rw [ltrim, List.dropWhile_cons]
    by_cases ha : isWSChar a
    · rw [if_pos (by simp [ha])]
      rw [containsStr] at hc
      rcases Bool.or_eq_true_iff.mp hc with hp | hcont
      · cases k with
        | nil => exact containsStr_nil_right _
        | cons b bs =>
          have := isPrefixOf_head hp (by simp)
          simp only [List.head?_cons, Option.some.injEq] at this
          have hb := hhead b rfl
          rw [← this] at hb
          rw [hb] at ha
          exact absurd ha (by simp)
      · exact ih hcont
    · rw [if_neg (by simp [ha])]
      exact hc

theorem containsStr_reverse_iff (l k : List Char) :
    containsStr l.reverse k.reverse = true ↔ containsStr l k = true := by
  rw [containsStr_iff, containsStr_iff]
  constructor
  · rintro ⟨s, t, hst⟩
    refine ⟨t.reverse, s.reverse, ?_⟩
    have := congrArg List.reverse hst
    simpa [List.reverse_append, List.append_assoc] using this
  · rintro ⟨s, t, rfl⟩
    exact ⟨t.reverse, s.reverse, by simp [List.reverse_append, List.append_assoc]⟩

theorem containsStr_rtrim {l k : List Char}
    (hlast : ∀ a, k.getLast? = some a → isWSChar a = false)
    (hc : containsStr l k = true) : containsStr (rtrim l) k = true := by
  rw [rtrim]
  rw [← containsStr_reverse_iff]
  simp only [List.reverse_reverse]
  refine containsStr_ltrim ?_ ((containsStr_reverse_iff l k).mpr hc)
  intro a ha
  rw [List.head?_reverse] at ha
  exact hlast a ha

theorem containsStr_trim {l k : List Char}
    (hhead : ∀ a, k.head? = some a → isWSChar a = false)
    (hlast : ∀ a, k.getLast? = some a → isWSChar a = false)
    (hc : containsStr l k = true) : containsStr (trim l) k = true := by
  rw [trim_eq_rtrim_ltrim]
  exact containsStr_rtrim hlast (containsStr_ltrim hhead hc)

theorem containsStr_of_trim {l k : List Char}
    (hc : containsStr (trim l) k = true) : containsStr l k = true := by
  obtain ⟨w₁, w₂, hl, _, _⟩ := trim_decomp l
  rw [hl]
  exact containsStr_outer w₁ w₂ hc

/-! ### Facts about `splitLines` -/

theorem splitLines_ne_nil (c : List Char) : splitLines c ≠ [] := by
  induction c using splitLines.induct with
  | case1 => simp [splitLines]
  | case2 rest ih => simp [splitLines]
  | case3 rest ih => simp [splitLines]
  | case4 c rest h1 h2 heq ih => simp [splitLines, h1, h2, heq]
  | case5 c rest h1 h2 l ls heq ih => simp [splitLines, h1, h2, heq]

theorem splitLines_cons_eq (a : Char) (rest : List Char)
    (h1 : a ≠ '\n') (h2 : ¬(a = '\r' ∧ rest.head? = some '\n')) :
    splitLines (a :: rest) =
      match splitLines rest with
      | [] => [[a]]
      | l :: ls => (a :: l) :: ls := by
  rw [splitLines.eq_def]
  split
  case h_1 heq => exact absurd heq (by simp)
  case h_2 r heq =>
    exfalso
    simp only [List.cons.injEq] at heq
    exact h2 ⟨heq.1, by rw [heq.2]; rfl⟩
  case h_3 r heq =>
    exfalso
    simp only [List.cons.injEq] at heq
    exact h1 heq.1
  case h_4 x c r hx1 hx2 heq =>
    simp only [List.cons.injEq] at heq
    rw [heq.1, heq.2]

theorem splitLines_head_part (c : List Char) : ∃ t, c = (splitLines c).headI ++ t := by
  induction c using splitLines.induct with
  | case1 => exact ⟨[], rfl⟩
  | case2 rest ih => exact ⟨'\r' :: '\n' :: rest, rfl⟩
  | case3 rest ih => exact ⟨'\n' :: rest, rfl⟩
  | case4 c rest h1 h2 heq ih => exact absurd heq (splitLines_ne_nil rest)
  | case5 c rest h1 h2 l ls heq ih =>
    obtain ⟨t, ht⟩ := ih
    rw [heq] at ht
    refine ⟨t, ?_⟩
    rw [splitLines_cons_eq c rest h2 ?hr, heq]
    · simpa [List.headI] using ht
    · rintro ⟨hc, hh⟩
      cases rest with
      | nil => simp at hh
      | cons b bs =>
        simp only [List.head?_cons, Option.some.injEq] at hh
        exact h1 bs hc (by rw [hh])

theorem splitLines_parts (c : List Char) :
    ∀ l ∈ splitLines c, ∃ s t, c = s ++ l ++ t := by
  induction c using splitLines.induct with
  | case1 =>
    intro l hl
    simp only [splitLines, List.mem_singleton] at hl
    exact ⟨[], [], by simp [hl]⟩
  | case2 rest ih =>
    intro l hl
    rw [show splitLines ('\r' :: '\n' :: rest) = [] :: splitLines rest from rfl] at hl
    rcases List.mem_cons.mp hl with rfl | hl
    · exact ⟨[], '\r' :: '\n' :: rest, by simp⟩
    · obtain ⟨s, t, hst⟩ := ih l hl
      exact ⟨'\r' :: '\n' :: s, t, by simp [hst]⟩
  | case3 rest ih =>
    intro l hl
    rw [show splitLines ('\n' :: rest) = [] :: splitLines rest from rfl] at hl
    rcases List.mem_cons.mp hl with rfl | hl
    · exact ⟨[], '\n' :: rest, by simp⟩
    · obtain ⟨s, t, hst⟩ := ih l hl
      exact ⟨'\n' :: s, t, by simp [hst]⟩
  | case4 c rest h1 h2 heq ih => exact absurd heq (splitLines_ne_nil rest)
  | case5 c rest h1 h2 l₀ ls heq ih =>
    intro l hl
    have h2' : ¬(c = '\r' ∧ rest.head? = some '\n') := by
      rintro ⟨hc, hh⟩
      cases rest with
      | nil => simp at hh
      | cons b bs =>
        simp only [List.head?_cons, Option.some.injEq] at hh
        exact h1 bs hc (by rw [hh])
    rw [splitLines_cons_eq c rest h2 h2', heq] at hl
    rcases List.mem_cons.mp hl with rfl | hl
    · obtain ⟨t, ht⟩ := splitLines_head_part rest
      rw [heq] at ht
      simp only [List.headI] at ht
      exact ⟨[], t, by simp [ht]⟩
    · obtain ⟨s, t, hst⟩ := ih l (by rw [heq]; exact List.mem_cons_of_mem _ hl)
      exact ⟨c :: s, t, by simp [hst]⟩

theorem containsStr_of_line {c l k : List Char} (hl : l ∈ splitLines c)
    (hck : containsStr l k = true) : containsStr c k = true := by
  obtain ⟨s, t, rfl⟩ := splitLines_parts c l hl
  exact containsStr_outer s t hck

theorem splitLines_no_newline (c : List Char) : ∀ l ∈ splitLines c, '\n' ∉ l := by
  induction c using splitLines.induct with
  | case1 =>
    intro l hl
    simp only [splitLines, List.mem_singleton] at hl
    simp [hl]
  | case2 rest ih =>
    intro l hl
    rcases List.mem_cons.mp hl with rfl | hl
    · simp
    · exact ih l hl
  | case3 rest ih =>
    intro l hl
    rcases List.mem_cons.mp hl with rfl | hl
    · simp
    · exact ih l hl
  | case4 c rest h1 h2 heq ih => exact absurd heq (splitLines_ne_nil rest)
  | case5 c rest h1 h2 l₀ ls heq ih =>
    intro l hl
    have h2' : ¬(c = '\r' ∧ rest.head? = some '\n') := by
      rintro ⟨hc, hh⟩
      cases rest with
      | nil => simp at hh
      | cons b bs =>
        simp only [List.head?_cons, Option.some.injEq] at hh
        exact h1 bs hc (by rw [hh])
    rw [splitLines_cons_eq c rest h2 h2', heq] at hl
    rcases List.mem_cons.mp hl with rfl | hl
    · intro hmem
      rcases List.mem_cons.mp hmem with hc | hmem
      · exact h2 hc.symm
      · exact ih l₀ (by rw [heq]; exact List.mem_cons_self _ _) hmem
    · exact ih l (by rw [heq]; exact List.mem_cons_of_mem _ hl)

theorem headI_mem_of_ne_nil {L : List (List Char)} (h : L ≠ []) : L.headI ∈ L := by
  cases L with
  | nil => exact absurd rfl h
  | cons a t => exact List.mem_cons_self _ _

theorem splitLines_head_prefixOf {c : List Char} :
    ∀ k : List Char, '\n' ∉ k → '\r' ∉ k → k.isPrefixOf c = true →
      k.isPrefixOf ((splitLines c).headI) = true := by
  induction c using splitLines.induct with
  | case1 =>
    intro k hn hr hp
    obtain ⟨t, ht⟩ := (isPrefixOf_iff _ _).mp hp
    obtain ⟨hk, _⟩ := List.append_eq_nil.mp ht.symm
    simp [hk, splitLines]
  | case2 rest ih =>
    intro k hn hr hp
    cases k with
    | nil => simp [List.isPrefixOf]
    | cons b bs =>
      have := isPrefixOf_head hp (by simp)
      simp only [List.head?_cons, Option.some.injEq] at this
      exact absurd (by simp [← this] : '\r' ∈ b :: bs) hr
  | case3 rest ih =>
    intro k hn hr hp
    cases k with
    | nil => simp [List.isPrefixOf]
    | cons b bs =>
      have := isPrefixOf_head hp (by simp)
      simp only [List.head?_cons, Option.some.injEq] at this
      exact absurd (by simp [← this] : '\n' ∈ b :: bs) hn
  | case4 c rest h1 h2 heq ih => exact absurd heq (splitLines_ne_nil rest)
  | case5 c rest h1 h2 l₀ ls heq ih =>
    intro k hn hr hp
    have h2' : ¬(c = '\r' ∧ rest.head? = some '\n') := by
      rintro ⟨hc, hh⟩
      cases rest with
      | nil => simp at hh
      | cons b bs =>
        simp only [List.head?_cons, Option.some.injEq] at hh
        exact h1 bs hc (by rw [hh])
    rw [splitLines_cons_eq c rest h2 h2', heq]
    cases k with
    | nil => simp [List.isPrefixOf]
    | cons b bs =>
      obtain ⟨t, ht⟩ := (isPrefixOf_iff _ _).mp hp
      simp only [List.cons_append, List.cons.injEq] at ht
      have hbs : bs.isPrefixOf ((splitLines rest).headI) = true :=
        ih bs (fun hm => hn (List.mem_cons_of_mem _ hm))
          (fun hm => hr (List.mem_cons_of_mem _ hm))
          ((isPrefixOf_iff _ _).mpr ⟨t, ht.2⟩)
      rw [heq] at hbs
      simp only [List.headI] at hbs ⊢
      rw [ht.1]
      simpa [List.isPrefixOf] using hbs

theorem containsStr_splitLines {k c : List Char} (hn : '\n' ∉ k) (hr : '\r' ∉ k)
    (hc : containsStr c k = true) : ∃ l ∈ splitLines c, containsStr l k = true := by
  induction c using splitLines.induct with
  | case1 =>
    refine ⟨[], by simp [splitLines], ?_⟩
    rw [containsStr] at hc
    simpa [containsStr] using hc
  | case2 rest ih =>
    rw [containsStr] at hc
    rcases Bool.or_eq_true_iff.mp hc with hp | hc₂
    · cases k with
      | nil => exact ⟨[], List.mem_cons_self _ _, containsStr_nil_right _⟩
      | cons b bs =>
        have := isPrefixOf_head hp (by simp)
        simp only [List.head?_cons, Option.some.injEq] at this
        exact absurd (by simp [← this] : '\r' ∈ b :: bs) hr
    · rw [containsStr] at hc₂
      rcases Bool.or_eq_true_iff.mp hc₂ with hp | hc₃
      · cases k with
        | nil => exact ⟨[], List.mem_cons_self _ _, containsStr_nil_right _⟩
        | cons b bs =>
          have := isPrefixOf_head hp (by simp)
          simp only [List.head?_cons, Option.some.injEq] at this
          exact absurd (by simp [← this] : '\n' ∈ b :: bs) hn
      · obtain ⟨l, hl, hck⟩ := ih hc₃
        exact ⟨l, List.mem_cons_of_mem _ hl, hck⟩
  | case3 rest ih =>
    rw [containsStr] at hc
    rcases Bool.or_eq_true_iff.mp hc with hp | hc₂
    · cases k with
      | nil => exact ⟨[], List.mem_cons_self _ _, containsStr_nil_right _⟩
      | cons b bs =>
        have := isPrefixOf_head hp (by simp)
        simp only [List.head?_cons, Option.some.injEq] at this
        exact absurd (by simp [← this] : '\n' ∈ b :: bs) hn
    · obtain ⟨l, hl, hck⟩ := ih hc₂
      exact ⟨l, List.mem_cons_of_mem _ hl, hck⟩
  | case4 c rest h1 h2 heq ih => exact absurd heq (splitLines_ne_nil rest)
  | case5 c rest h1 h2 l₀ ls heq ih =>
    have h2' : ¬(c = '\r' ∧ rest.head? = some '\n') := by
      rintro ⟨hc', hh⟩
      cases rest with
      | nil => simp at hh
      | cons b bs =>
        simp only [List.head?_cons, Option.some.injEq] at hh
        exact h1 bs hc' (by rw [hh])
    rw [containsStr] at hc
    rcases Bool.or_eq_true_iff.mp hc with hp | hc₂
    · have hh := splitLines_head_prefixOf k hn hr hp
      refine ⟨(splitLines (c :: rest)).headI,
        headI_mem_of_ne_nil (splitLines_ne_nil _), ?_⟩
      obtain ⟨t, ht⟩ := (isPrefixOf_iff _ _).mp hh
      exact (containsStr_iff _ _).mpr ⟨[], t, by simpa using ht⟩
    · obtain ⟨l, hl, hck⟩ := ih hc₂
      rw [splitLines_cons_eq c rest h2 h2', heq]
      rw [heq] at hl
      rcases List.mem_cons.mp hl with rfl | hl₂
      · refine ⟨c :: l, List.mem_cons_self _ _, ?_⟩
        rw [containsStr]
        rw [hck]
        simp
      · exact ⟨l, List.mem_cons_of_mem _ hl₂, hck⟩

theorem splitLines_single {l : List Char} (h : '\n' ∉ l) : splitLines l = [l] := by
  induction l using splitLines.induct with
  | case1 => rfl
  | case2 rest ih => exact absurd (by simp) h
  | case3 rest ih => exact absurd (by simp) h
  | case4 c rest h1 h2 heq ih => exact absurd heq (splitLines_ne_nil rest)
  | case5 c rest h1 h2 l₀ ls heq ih =>
    have h2' : ¬(c = '\r' ∧ rest.head? = some '\n') := by
      rintro ⟨hc', hh⟩
      cases rest with
      | nil => simp at hh
      | cons b bs =>
        simp only [List.head?_cons, Option.some.injEq] at hh
        exact h1 bs hc' (by rw [hh])
    have hrest : splitLines rest = [rest] := ih fun hm => h (List.mem_cons_of_mem _ hm)
    rw [splitLines_cons_eq c rest h2 h2', hrest]

theorem splitLines_append_cons (l t : List Char) (hn : '\n' ∉ l)
    (hr : l.getLast? ≠ some '\r') :
    splitLines (l ++ '\n' :: t) = l :: splitLines t := by
  induction l with
  | nil => rfl
  | cons a l' ih =>
    have ha : a ≠ '\n' := fun h => hn (h ▸ List.mem_cons_self _ _)
    have h2 : ¬(a = '\r' ∧ (l' ++ '\n' :: t).head? = some '\n') := by
      rintro ⟨rfl, hh⟩
      cases l' with
      | nil => exact hr rfl
      | cons b bs =>
        simp only [List.cons_append, List.head?_cons, Option.some.injEq] at hh
        exact hn (by simp [hh])
    rw [List.cons_append, splitLines_cons_eq a _ ha h2]
    cases l' with
    | nil => rw [show splitLines ([] ++ '\n' :: t) = [] :: splitLines t from rfl]
    | cons b bs =>
      have hn' : '\n' ∉ b :: bs := fun hm => hn (List.mem_cons_of_mem _ hm)
      have hr' : (b :: bs).getLast? ≠ some '\r' := by
        intro hl
        apply hr
        rw [List.getLast?_cons_cons]
        exact hl
      rw [ih hn' hr']

theorem splitLines_joinLines (L : List (List Char)) (hL : L ≠ [])
    (h : ∀ l ∈ L, '\n' ∉ l ∧ l.getLast? ≠ some '\r') :
    splitLines (joinLines L) = L := by
  induction L with
  | nil => exact absurd rfl hL
  | cons l L' ih =>
    cases L' with
    | nil =>
      rw [show joinLines [l] = l from rfl]
      exact splitLines_single (h l (List.mem_cons_self _ _)).1
    | cons m M =>
      rw [show joinLines (l :: m :: M) = l ++ '\n' :: joinLines (m :: M) from rfl]
      rw [splitLines_append_cons _ _ (h l (List.mem_cons_self _ _)).1
        (h l (List.mem_cons_self _ _)).2]
      rw [ih (by simp) fun x hx => h x (List.mem_cons_of_mem _ hx)]

/-! ### Structure of `replaceURIs` -/

theorem replaceURIs_some {bp : List Char} {c : Char} {rest body rem : List Char}
    (h : uriBody (c :: rest) = some (body, rem)) :
    replaceURIs bp (c :: rest) =
      (if ("http".data).isPrefixOf body || ("/".data).isPrefixOf body then
        uriLit ++ body ++ ['"']
      else
        uriLit ++ bp ++ body ++ ['"']) ++ replaceURIs bp rem := by
  rw [replaceURIs]
  split
  · rename_i b r heq
    rw [h] at heq
    simp only [Option.some.injEq, Prod.mk.injEq] at heq
    rw [heq.1, heq.2]
  · rename_i heq
    rw [h] at heq
    exact absurd heq (by simp)

theorem replaceURIs_none {bp : List Char} {c : Char} {rest : List Char}
    (h : uriBody (c :: rest) = none) :
    replaceURIs bp (c :: rest) = c :: replaceURIs bp rest := by
  rw [replaceURIs]
  split
  · rename_i b r heq
    rw [h] at heq
    exact absurd heq (by simp)
  · rfl

theorem replaceURIs_nil (bp : List Char) : replaceURIs bp [] = [] := by
  rw [replaceURIs]

theorem uriLit_head : uriLit.head? = some 'U' := rfl

theorem uriLit_isPrefixOf_self : uriLit.isPrefixOf uriLit = true :=
  (isPrefixOf_iff _ _).mpr ⟨[], by simp⟩

/-- Agreement: `replaceURIs` either leaves the line unchanged, or the line and its
rewrite share a common prefix after which both continue with `URI="`. -/
theorem replaceURIs_agree (bp l : List Char) :
    replaceURIs bp l = l ∨
      ∃ a b b', l = a ++ b ∧ replaceURIs bp l = a ++ b' ∧
        uriLit.isPrefixOf b = true ∧ uriLit.isPrefixOf b' = true := by
  induction l using replaceURIs.induct bp with
  | case1 => left; exact replaceURIs_nil bp
  | case2 c t body rem h ih =>
    right
    obtain ⟨hp, _, _, _⟩ := uriBody_spec h
    rw [@replaceURIs_some bp c t body rem h]
    refine ⟨[], c :: t,
      (if ("http".data).isPrefixOf body || ("/".data).isPrefixOf body then
        uriLit ++ body ++ ['"']
      else
        uriLit ++ bp ++ body ++ ['"']) ++ replaceURIs bp rem,
      by simp, by simp, hp, ?_⟩
    split
    · exact (isPrefixOf_iff _ _).mpr ⟨body ++ ['"'] ++ replaceURIs bp rem, by simp⟩
    · exact (isPrefixOf_iff _ _).mpr ⟨bp ++ body ++ ['"'] ++ replaceURIs bp rem, by simp⟩
  | case3 c t h ih =>
    rw [replaceURIs_none h]
    rcases ih with heq | ⟨a, b, b', hl, hr, hb, hb'⟩
    · left
      rw [heq]
    · right
      exact ⟨c :: a, b, b', by simp [hl], by simp [hr], hb, hb'⟩

theorem head?_append_of_ne_nil {x y : List Char} (h : x ≠ []) :
    (x ++ y).head? = x.head? := by
  cases x with
  | nil => exact absurd rfl h
  | cons a t => rfl

theorem ltrim_append_uri {a b : List Char} (hb : b.head? = some 'U') :
    ltrim (a ++ b) = if (ltrim a).isEmpty then b else ltrim a ++ b := by
  rw [ltrim, List.dropWhile_append]
  cases b with
  | nil => simp at hb
  | cons u t =>
    simp only [List.head?_cons, Option.some.injEq] at hb
    subst hb
    rw [show List.dropWhile isWSChar ('U' :: t) = 'U' :: t by
      rw [List.dropWhile_cons, if_neg (by simp [isWSChar])]]
    rfl

theorem ltrim_head_replaceURIs (bp l : List Char) :
    (ltrim (replaceURIs bp l)).head? = (ltrim l).head? := by
  rcases replaceURIs_agree bp l with heq | ⟨a, b, b', hl, hr, hb, hb'⟩
  · rw [heq]
  · have hbh : b.head? = some 'U' := by rw [isPrefixOf_head hb (by simp [uriLit]), uriLit_head]
    have hbh' : b'.head? = some 'U' := by rw [isPrefixOf_head hb' (by simp [uriLit]), uriLit_head]
    rw [hr, hl, ltrim_append_uri hbh, ltrim_append_uri hbh']
    split
    · rw [hbh, hbh']
    · rename_i hne
      have hne' : ltrim a ≠ [] := by simpa [List.isEmpty_iff] using hne
      rw [head?_append_of_ne_nil hne', head?_append_of_ne_nil hne']

theorem isPrefixOf_false_of_head {s b : List Char} {u : Char}
    (hb : b.head? = some u) (hu : u ∉ s) (hs : s ≠ []) :
    s.isPrefixOf b = false := by
  cases hp : s.isPrefixOf b with
  | false => rfl
  | true =>
    exfalso
    have := isPrefixOf_head hp hs
    rw [hb] at this
    cases s with
    | nil => exact hs rfl
    | cons z zs =>
      simp only [List.head?_cons, Option.some.injEq] at this
      exact hu (by simp [this])

theorem isPrefixOf_ltrim_replaceURIs (s bp l : List Char) (hU : 'U' ∉ s) :
    s.isPrefixOf (ltrim (replaceURIs bp l)) = s.isPrefixOf (ltrim l) := by
  rcases replaceURIs_agree bp l with heq | ⟨a, b, b', hl, hr, hb, hb'⟩
  · rw [heq]
  · have hbh : b.head? = some 'U' := by rw [isPrefixOf_head hb (by simp [uriLit]), uriLit_head]
    have hbh' : b'.head? = some 'U' := by rw [isPrefixOf_head hb' (by simp [uriLit]), uriLit_head]
    rw [hr, hl, ltrim_append_uri hbh, ltrim_append_uri hbh']
    cases hs : s with
    | nil => simp [List.isPrefixOf]
    | cons z zs =>
      rw [← hs]
      have hsne : s ≠ [] := by simp [hs]
      split
      · rw [isPrefixOf_false_of_head hbh hU hsne, isPrefixOf_false_of_head hbh' hU hsne]
      · rw [isPrefixOf_append_head hbh hU, isPrefixOf_append_head hbh' hU]

theorem containsStr_uriLit_of_agree {x a b : List Char} (hx : x = a ++ b)
    (hb : uriLit.isPrefixOf b = true) : containsStr (trim x) uriLit = true := by
  obtain ⟨t, rfl⟩ := (isPrefixOf_iff _ _).mp hb
  refine containsStr_trim ?_ ?_ ?_
  · intro c hc
    rw [uriLit_head] at hc
    simp only [Option.some.injEq] at hc
    subst hc
    rfl
  · intro c hc
    have : uriLit.getLast? = some '"' := rfl
    rw [this] at hc
    simp only [Option.some.injEq] at hc
    subst hc
    rfl
  · rw [hx]
    exact (containsStr_iff _ _).mpr ⟨a, t, by simp⟩

theorem trim_ne_discont_of_uriLit {x : List Char}
    (h : containsStr (trim x) uriLit = true) : ¬(trim x = discontLit) := by
  intro he
  rw [he] at h
  exact absurd h (by decide)

theorem trim_discont_replaceURIs (bp l : List Char) :
    (trim (replaceURIs bp l) = discontLit) ↔ (trim l = discontLit) := by
  rcases replaceURIs_agree bp l with heq | ⟨a, b, b', hl, hr, hb, hb'⟩
  · rw [heq]
  · constructor
    · intro h
      exact absurd h (trim_ne_discont_of_uriLit (containsStr_uriLit_of_agree hr hb'))
    · intro h
      exact absurd h (trim_ne_discont_of_uriLit (containsStr_uriLit_of_agree hl hb))

theorem isExt_trim_eq_ltrim (l : List Char) :
    extinfLit.isPrefixOf (trim l) = extinfLit.isPrefixOf (ltrim l) := by
  refine isPrefixOf_trim _ _ ?_
  intro a ha
  have : extinfLit.getLast? = some ':' := rfl
  rw [this] at ha
  simp only [Option.some.injEq] at ha
  subst ha
  rfl

theorem isMetaStored_replaceURIs (bp l : List Char) :
    isMetaStored (replaceURIs bp l) = isMetaStored l := by
  rw [isMetaStored, isMetaStored]
  rw [isExt_trim_eq_ltrim, isExt_trim_eq_ltrim]
  rw [isPrefixOf_ltrim_replaceURIs _ _ _ (by decide)]
  have hd : (trim (replaceURIs bp l) == discontLit) = (trim l == discontLit) := by
    rcases iff_iff_and_or_not_and_not.mp (trim_discont_replaceURIs bp l) with ⟨h1, h2⟩ | ⟨h1, h2⟩
    · simp [h1, h2]
    · simp [beq_eq_false_iff_ne.mpr h1, beq_eq_false_iff_ne.mpr h2]
  rw [hd]

theorem isMetaStored_eq (l : List Char) :
    isMetaStored l = (isExtLine l || isDiscLine l) := rfl

theorem trim_eq_nil_iff (l : List Char) : trim l = [] ↔ ltrim l = [] := by
  constructor
  · intro h
    exact ltrim_nil_of_rtrim_nil (trim_eq_rtrim_ltrim l ▸ h)
  · intro h
    rw [trim_eq_rtrim_ltrim, h]
    rfl

theorem isMetaStored_head {l : List Char} (h : isMetaStored l = true) :
    (ltrim l).head? = some '#' := by
  rw [← trim_head?]
  rw [isMetaStored] at h
  rcases Bool.or_eq_true_iff.mp h with he | hd
  · rw [isPrefixOf_head he (by decide)]
    rfl
  · rw [eq_of_beq hd]
    rfl

theorem not_isMetaStored_of_head {l : List Char} (h : (ltrim l).head? ≠ some '#') :
    isMetaStored l = false := by
  cases hm : isMetaStored l with
  | false => rfl
  | true => exact absurd (isMetaStored_head hm) h

theorem ltrim_append_head (bp t : List Char) (ht : ltrim t = t) :
    (ltrim (bp ++ t)).head? =
      if (ltrim bp).isEmpty then t.head? else (ltrim bp).head? := by
  simp only [ltrim] at ht ⊢
  rw [List.dropWhile_append]
  by_cases hbp : (List.dropWhile isWSChar bp).isEmpty = true
  · rw [if_pos hbp, if_pos hbp, ht]
  · rw [if_neg hbp, if_neg hbp]
    refine head?_append_of_ne_nil ?_
    intro h0
    exact hbp (by simp [h0])

theorem ltrim_trim (l : List Char) : ltrim (trim l) = trim l :=
  ltrim_eq_self fun _ ha => trim_head_not_ws ha

theorem trim_append_trim_ne_nil {bp t : List Char} (ht : trim t = t) (htne : t ≠ []) :
    trim (bp ++ t) ≠ [] := by
  have hlt : List.dropWhile isWSChar t = t := by
    have := ht ▸ ltrim_trim t
    simpa [ltrim] using this
  rw [Ne, trim_eq_nil_iff, ltrim, List.dropWhile_append]
  by_cases hbp : (List.dropWhile isWSChar bp).isEmpty = true
  · rw [if_pos hbp, hlt]
    exact htne
  · rw [if_neg hbp]
    intro h0
    rw [List.append_eq_nil] at h0
    exact hbp (by simp [h0.1])

theorem bare_stored_facts {bp t : List Char} (hbp : (ltrim bp).head? ≠ some '#')
    (ht : trim t = t) (htne : t ≠ []) (hth : t.head? ≠ some '#') :
    isMetaStored (bp ++ t) = false ∧ isPlayableLine (bp ++ t) = true := by
  have hlt : ltrim t = t := ht ▸ ltrim_trim t
  have hhead : (ltrim (bp ++ t)).head? ≠ some '#' := by
    rw [ltrim_append_head bp t hlt]
    split
    · exact hth
    · exact hbp
  refine ⟨not_isMetaStored_of_head hhead, ?_⟩
  rw [isPlayableLine]
  have h1 : (trim (bp ++ t)).isEmpty = false := by
    cases hx : trim (bp ++ t) with
    | nil => exact absurd hx (trim_append_trim_ne_nil ht htne)
    | cons a r => rfl
  have h2 : ((trim (bp ++ t)).head? == some '#') = false := by
    rw [trim_head?]
    simp only [beq_eq_false_iff_ne]
    exact hhead
  rw [h1, h2]
  rfl

theorem originOf_cases (u : List Char) :
    originOf u = [] ∨ ("http".data).isPrefixOf (originOf u) = true := by
  rw [originOf]
  split
  · dsimp only
    split
    · exact Or.inl rfl
    · rename_i host _
      exact Or.inr ((isPrefixOf_iff _ _).mpr
        ⟨':' :: '/' :: '/' :: (u.drop 7).takeWhile (fun c => c ≠ '/' && c ≠ '?' && c ≠ '#'), rfl⟩)
  · split
    · dsimp only
      split
      · exact Or.inl rfl
      · exact Or.inr ((isPrefixOf_iff _ _).mpr
          ⟨'s' :: ':' :: '/' :: '/' :: (u.drop 8).takeWhile (fun c => c ≠ '/' && c ≠ '?' && c ≠ '#'), rfl⟩)
    · exact Or.inl rfl

theorem basePathOf_is_prefixOf (u : List Char) : ∃ t, u = basePathOf u ++ t := by
  obtain ⟨s, hs⟩ := @List.dropWhile_suffix Char u.reverse (fun c => c ≠ '/')
  refine ⟨s.reverse, ?_⟩
  have h2 := congrArg List.reverse hs
  simp only [List.reverse_append, List.reverse_reverse] at h2
  rw [basePathOf]
  exact h2.symm

theorem basePathOf_getLast {u : List Char} (h : basePathOf u ≠ []) :
    (basePathOf u).getLast? = some '/' := by
  rw [basePathOf] at h ⊢
  rw [List.getLast?_reverse]
  cases hx : u.reverse.dropWhile (fun c => c ≠ '/') with
  | nil => rw [hx] at h; simp at h
  | cons a t =>
    have hd : (u.reverse.dropWhile fun c => c ≠ '/').head? = some a := by rw [hx]; rfl
    have ha := head?_dropWhile_not _ _ hd
    simp only [decide_eq_false_iff_not, not_not] at ha
    simp [ha]

theorem basePathOf_http {u : List Char} (hu : ("http".data).isPrefixOf u = true) :
    basePathOf u = [] ∨ ("http".data).isPrefixOf (basePathOf u) = true := by
  by_cases hbp : basePathOf u = []
  · exact Or.inl hbp
  · right
    obtain ⟨t, ht⟩ := basePathOf_is_prefixOf u
    have hpu : basePathOf u <+: u := ⟨t, ht.symm⟩
    have hhu : ("http".data) <+: u := List.isPrefixOf_iff_prefix.mp hu
    rcases le_or_lt (basePathOf u).length 4 with hle | hlt
    · exfalso
      have hsub : basePathOf u <+: ("http".data) :=
        List.prefix_of_prefix_length_le hpu hhu (by simpa using hle)
      have hmem : '/' ∈ ("http".data) := by
        have hg := basePathOf_getLast hbp
        exact hsub.sublist.subset (List.mem_of_mem_getLast? hg)
      exact absurd hmem (by decide)
    · exact List.isPrefixOf_iff_prefix.mpr
        (List.prefix_of_prefix_length_le hhu hpu (by simpa using Nat.le_of_lt hlt))

/-! ### The branch structure of `processLine` -/

theorem processLine_eq (kws : List (List Char)) (hasAd : Bool) (bp orig : List Char)
    (acc : List (List Char)) (line : List Char) :
    (processLine kws hasAd bp orig acc line = acc.dropWhile isMetaStored ∧
      hasAd = true ∧ matchLine kws line = true) ∨
    (processLine kws hasAd bp orig acc line = acc ∧
      hasAd = false ∧ trim line = discontLit) ∨
    (processLine kws hasAd bp orig acc line = rewriteLine bp orig line :: acc ∧
      ¬(hasAd = true ∧ matchLine kws line = true) ∧
      ¬(hasAd = false ∧ trim line = discontLit)) := by
  simp only [processLine, rewriteLine]
  by_cases h1 : (hasAd && kws.any fun k => containsStr (trim line) k) = true
  · rw [if_pos h1]
    obtain ⟨ha, hm⟩ := Bool.and_eq_true_iff.mp h1
    exact Or.inl ⟨rfl, ha, hm⟩
  · rw [if_neg h1]
    have hno1 : ¬(hasAd = true ∧ matchLine kws line = true) := by
      rintro ⟨ha, hm⟩
      rw [matchLine] at hm
      exact h1 (by rw [ha, hm]; rfl)
    by_cases h2 : trim line = discontLit
    · rw [if_pos h2, if_pos h2]
      cases ha : hasAd with
      | false => exact Or.inr (Or.inl ⟨rfl, rfl, h2⟩)
      | true =>
        refine Or.inr (Or.inr ⟨rfl, ?_, by simp⟩)
        rw [ha] at hno1
        exact hno1
    · rw [if_neg h2, if_neg h2]
      have hno2 : ¬(hasAd = false ∧ trim line = discontLit) := fun h => h2 h.2
      refine Or.inr (Or.inr ⟨?_, hno1, hno2⟩)
      split_ifs <;> rfl

theorem processLine_push {kws : List (List Char)} {hasAd : Bool} {bp orig : List Char}
    {acc : List (List Char)} {line : List Char}
    (hm : ¬(hasAd = true ∧ matchLine kws line = true))
    (hd : ¬(hasAd = false ∧ trim line = discontLit)) :
    processLine kws hasAd bp orig acc line = rewriteLine bp orig line :: acc := by
  rcases processLine_eq kws hasAd bp orig acc line with ⟨_, ha, hmm⟩ | ⟨_, ha, hdd⟩ | ⟨he, _, _⟩
  · exact absurd ⟨ha, hmm⟩ hm
  · exact absurd ⟨ha, hdd⟩ hd
  · exact he

theorem filterLoop_append (kws : List (List Char)) (hasAd : Bool) (bp orig : List Char)
    (ls₁ ls₂ : List (List Char)) (acc : List (List Char)) :
    filterLoop kws hasAd bp orig acc (ls₁ ++ ls₂) =
      filterLoop kws hasAd bp orig (filterLoop kws hasAd bp orig acc ls₁) ls₂ := by
  induction ls₁ generalizing acc with
  | nil => rfl
  | cons l ls ih => exact ih (processLine kws hasAd bp orig acc l)

theorem filterLoop_mem (kws : List (List Char)) (hasAd : Bool) (bp orig : List Char) :
    ∀ (ls acc : List (List Char)) (x : List Char),
      x ∈ filterLoop kws hasAd bp orig acc ls →
      x ∈ acc ∨ ∃ l ∈ ls, x = rewriteLine bp orig l ∧
        (hasAd = true → matchLine kws l = false) ∧
        (hasAd = false → trim l ≠ discontLit) := by
  intro ls
  induction ls with
  | nil => exact fun acc x hx => Or.inl hx
  | cons l ls ih =>
    intro acc x hx
    rw [filterLoop] at hx
    rcases processLine_eq kws hasAd bp orig acc l with ⟨he, _, _⟩ | ⟨he, _, _⟩ | ⟨he, hm, hd⟩
    · rw [he] at hx
      rcases ih _ x hx with hin | ⟨l', hl', hrest⟩
      · exact Or.inl ((List.dropWhile_sublist isMetaStored).subset hin)
      · exact Or.inr ⟨l', List.mem_cons_of_mem _ hl', hrest⟩
    · rw [he] at hx
      rcases ih _ x hx with hin | ⟨l', hl', hrest⟩
      · exact Or.inl hin
      · exact Or.inr ⟨l', List.mem_cons_of_mem _ hl', hrest⟩
    · rw [he] at hx
      rcases ih _ x hx with hin | ⟨l', hl', hrest⟩
      · rcases List.mem_cons.mp hin with rfl | hin₂
        · refine Or.inr ⟨l, List.mem_cons_self _ _, rfl, ?_, ?_⟩
          · intro ha
            cases hml : matchLine kws l with
            | false => rfl
            | true => exact absurd ⟨ha, hml⟩ hm
          · intro ha
            intro hdd
            exact hd ⟨ha, hdd⟩
        · exact Or.inl hin₂
      · exact Or.inr ⟨l', List.mem_cons_of_mem _ hl', hrest⟩

theorem filterLinesOut_mem {kws : List (List Char)} {content u x : List Char}
    (hx : x ∈ filterLinesOut kws content u) :
    ∃ l ∈ splitLines content, x = rewriteLine (basePathOf u) (originOf u) l ∧
      (hasAdSignal kws content = true → matchLine kws l = false) ∧
      (hasAdSignal kws content = false → trim l ≠ discontLit) := by
  rw [filterLinesOut] at hx
  split at hx
  · simp at hx
  · rw [List.mem_reverse] at hx
    rcases filterLoop_mem kws (hasAdSignal kws content) (basePathOf u) (originOf u)
      (splitLines content) [] x hx with hin | h
    · simp at hin
    · exact h

/-! ### Order preservation: the output is a sublist of the per-line rewrites -/

theorem filterLoop_sublist (kws : List (List Char)) (hasAd : Bool) (bp orig : List Char) :
    ∀ (ls acc : List (List Char)),
      List.Sublist (filterLoop kws hasAd bp orig acc ls).reverse
        (acc.reverse ++ ls.map (rewriteLine bp orig)) := by
  intro ls
  induction ls with
  | nil => simp [filterLoop]
  | cons l ls ih =>
    intro acc
    rw [filterLoop]
    rcases processLine_eq kws hasAd bp orig acc l with ⟨he, _, _⟩ | ⟨he, _, _⟩ | ⟨he, _, _⟩
    · rw [he]
      refine List.Sublist.trans (ih _) ?_
      rw [List.map_cons]
      have h1 : List.Sublist (acc.dropWhile isMetaStored).reverse acc.reverse :=
        List.Sublist.reverse ((List.dropWhile_sublist isMetaStored))
      refine List.Sublist.trans (List.Sublist.append_right h1 _) ?_
      refine List.Sublist.append_left ?_ _
      exact List.sublist_cons_self _ _
    · rw [he]
      refine List.Sublist.trans (ih _) ?_
      rw [List.map_cons]
      refine List.Sublist.append_left ?_ _
      exact List.sublist_cons_self _ _
    · rw [he]
      refine List.Sublist.trans (ih _) ?_
      rw [List.map_cons]
      have : (rewriteLine bp orig l :: acc).reverse = acc.reverse ++ [rewriteLine bp orig l] := by
        simp
      rw [this, List.append_assoc]
      exact List.Sublist.append_left (by simp) _

theorem filterLinesOut_sublist (kws : List (List Char)) (content u : List Char) :
    List.Sublist (filterLinesOut kws content u)
      ((splitLines content).map (rewriteLine (basePathOf u) (originOf u))) := by
  rw [filterLinesOut]
  split
  · exact List.nil_sublist _
  · have := filterLoop_sublist kws (hasAdSignal kws content) (basePathOf u) (originOf u)
      (splitLines content) []
    simpa using this

theorem mem_trim_of_not_ws {l : List Char} {c : Char} (hc : c ∈ l)
    (hws : isWSChar c = false) : c ∈ trim l := by
  obtain ⟨w₁, w₂, hl, hw₁, hw₂⟩ := trim_decomp l
  rw [hl] at hc
  rcases List.mem_append.mp hc with hc' | hc2
  · rcases List.mem_append.mp hc' with hc1 | hct
    · rw [hw₁ c hc1] at hws
      exact absurd hws (by simp)
    · exact hct
  · rw [hw₂ c hc2] at hws
    exact absurd hws (by simp)

/-- C9 (implicit): the output line sequence is a sublist of the input line
sequence with each line individually rewritten in place: no line is invented,
duplicated, or reordered, and the output has at most as many lines as the input. -/
theorem claim9_line_order (kws : List (List Char)) (content u : List Char) :
    List.Sublist (filterLinesOut kws content u)
      ((splitLines content).map (rewriteLine (basePathOf u) (originOf u))) ∧
    (filterLinesOut kws content u).length ≤ (splitLines content).length := by
  refine ⟨filterLinesOut_sublist kws content u, ?_⟩
  have h := (filterLinesOut_sublist kws content u).length_le
  simpa using h

/-- C10, counterexample: with the default keyword `/adjump/`, the input line
`adjump/x.ts` contains no keyword, and neither the derived base path
`http://h/` nor the origin `http://h` contains one, yet the rewritten output
line `http://h/adjump/x.ts` does: the keyword is created across the junction
of the prefixed base path and the line.  This falsifies the claim as stated. -/
theorem claim10_cex :
    containsStr (basePathOf ("http://h/m.m3u8").data) ("/adjump/").data = false ∧
    containsStr (originOf ("http://h/m.m3u8").data) ("/adjump/").data = false ∧
    containsStr ("adjump/x.ts").data ("/adjump/").data = false ∧
    filterLinesOut defaultKeywords ("adjump/x.ts").data ("http://h/m.m3u8").data =
      [("http://h/adjump/x.ts").data] ∧
    containsStr ("http://h/adjump/x.ts").data ("/adjump/").data = true := by
  refine ⟨by decide, by decide, by decide, rfl, by decide⟩

/-- C10 (amended): if every input line the ad rule does not match has a
keyword-free single-line rewrite, then no output line contains a configured
keyword; in particular every input line matching the ad rule is removed. -/
theorem claim10_keyword_free_amended (kws : List (List Char)) (content u : List Char)
    (hrw : ∀ l ∈ splitLines content, matchLine kws l = false →
      ∀ k ∈ kws, containsStr (rewriteLine (basePathOf u) (originOf u) l) k = false) :
    (∀ x ∈ filterLinesOut kws content u, ∀ k ∈ kws, containsStr x k = false) ∧
    (∀ l ∈ splitLines content, matchLine kws l = true →
      l ∉ filterLinesOut kws content u) := by
  have hmain : ∀ x ∈ filterLinesOut kws content u, ∀ k ∈ kws, containsStr x k = false := by
    intro x hx k hk
    obtain ⟨l, hl, rfl, hAd, _⟩ := filterLinesOut_mem hx
    cases hAdS : hasAdSignal kws content with
    | true => exact hrw l hl (hAd hAdS) k hk
    | false =>
      refine hrw l hl ?_ k hk
      cases hml : matchLine kws l with
      | false => rfl
      | true =>
        exfalso
        rw [matchLine] at hml
        obtain ⟨k', hk', hck'⟩ := List.any_eq_true.mp hml
        have h1 : containsStr l k' = true := containsStr_of_trim hck'
        have h2 : containsStr content k' = true := containsStr_of_line hl h1
        have h3 : hasAdSignal kws content = true := by
          rw [hasAdSignal]
          exact List.any_eq_true.mpr ⟨k', hk', h2⟩
        rw [hAdS] at h3
        exact absurd h3 (by simp)
  refine ⟨hmain, ?_⟩
  intro l _ hml hmem
  rw [matchLine] at hml
  obtain ⟨k', hk', hck'⟩ := List.any_eq_true.mp hml
  have h1 : containsStr l k' = true := containsStr_of_trim hck'
  have h2 := hmain l hmem k' hk'
  rw [h1] at h2
  exact absurd h2 (by simp)

theorem isExtLine_head {l : List Char} (h : isExtLine l = true) :
    (trim l).head? = some '#' := by
  rw [isExtLine] at h
  rw [isPrefixOf_head h (by decide)]
  rfl

theorem isDiscLine_head {l : List Char} (h : isDiscLine l = true) :
    (trim l).head? = some '#' := by
  rw [isDiscLine] at h
  rw [eq_of_beq h]
  rfl

theorem not_meta_of_playable {l : List Char} (h : isPlayableLine l = true) :
    isExtLine l = false ∧ isDiscLine l = false := by
  rw [isPlayableLine, Bool.and_eq_true] at h
  obtain ⟨h1, h2⟩ := h
  constructor
  · cases he : isExtLine l with
    | false => rfl
    | true =>
      rw [isExtLine_head he] at h2
      simp at h2
  · cases hd : isDiscLine l with
    | false => rfl
    | true =>
      rw [isDiscLine_head hd] at h2
      simp at h2

theorem danglingFree_of_wfExtinf : ∀ ls, wfExtinf ls = true → danglingFree ls = true := by
  intro ls
  induction ls using wfExtinf.induct with
  | case1 => intro; rfl
  | case2 a => intro h; exact h
  | case3 a b r ih =>
    intro h
    rw [wfExtinf, Bool.and_eq_true] at h
    obtain ⟨h1, h2⟩ := h
    rw [danglingFree, Bool.and_eq_true]
    refine ⟨?_, ih h2⟩
    rcases Bool.or_eq_true_iff.mp h1 with hna | hpb
    · rw [hna]
      rfl
    · obtain ⟨hne, hnd⟩ := not_meta_of_playable hpb
      rw [hne, hnd]
      simp

theorem wfExtinf_eq (ls : List (List Char)) : wfExtinf ls = (pairsOut ls && lastNE ls) := by
  induction ls using wfExtinf.induct with
  | case1 => rfl
  | case2 a => simp [wfExtinf, pairsOut, lastNE]
  | case3 a b r ih =>
    rw [wfExtinf, pairsOut, ih]
    have hl : lastNE (a :: b :: r) = lastNE (b :: r) := by
      rw [lastNE, lastNE, List.getLast?_cons_cons]
    rw [hl, Bool.and_assoc]

theorem pairsOut_append_singleton (m : List (List Char)) (x : List Char) :
    pairsOut (m ++ [x]) =
      (pairsOut m &&
        match m.getLast? with
        | none => true
        | some y => !isExtLine y || isPlayableLine x) := by
  induction m using pairsOut.induct with
  | case1 => rfl
  | case2 y => simp [pairsOut, List.getLast?_singleton]
  | case3 y z r ih =>
    rw [List.cons_append, List.cons_append, pairsOut]
    rw [show (z :: r) ++ [x] = z :: (r ++ [x]) from rfl] at ih
    rw [ih]
    rw [show pairsOut (y :: z :: r) = ((!isExtLine y || isPlayableLine z) && pairsOut (z :: r))
      from rfl]
    rw [List.getLast?_cons_cons, Bool.and_assoc]

theorem pairsOut_reverse (acc : List (List Char)) : pairsOut acc.reverse = pairsOK acc := by
  induction acc with
  | nil => rfl
  | cons a rest ih =>
    rw [List.reverse_cons, pairsOut_append_singleton, ih, List.getLast?_reverse]
    cases rest with
    | nil => rfl
    | cons b r =>
      rw [pairsOK, List.head?_cons]
      rw [Bool.and_comm]

theorem wfExtinf_reverse (acc : List (List Char)) :
    wfExtinf acc.reverse = (pairsOK acc && headNE acc) := by
  rw [wfExtinf_eq, pairsOut_reverse]
  have : lastNE acc.reverse = headNE acc := by
    rw [lastNE, List.getLast?_reverse]
    cases acc with
    | nil => rfl
    | cons a r => rfl
  rw [this]

theorem wfExtinf_tail {l : List Char} {ls : List (List Char)}
    (h : wfExtinf (l :: ls) = true) : wfExtinf ls = true := by
  cases ls with
  | nil => rfl
  | cons b r =>
    rw [wfExtinf, Bool.and_eq_true] at h
    exact h.2

theorem wfExtinf_ext_head {l : List Char} {ls : List (List Char)}
    (h : wfExtinf (l :: ls) = true) (he : isExtLine l = true) :
    ∃ n ns, ls = n :: ns ∧ isPlayableLine n = true := by
  cases ls with
  | nil =>
    rw [wfExtinf, he] at h
    simp at h
  | cons n ns =>
    rw [wfExtinf, Bool.and_eq_true] at h
    rcases Bool.or_eq_true_iff.mp h.1 with hna | hp
    · rw [he] at hna
      simp at hna
    · exact ⟨n, ns, rfl, hp⟩

theorem pairsOK_tail {a : List Char} {r : List (List Char)}
    (h : pairsOK (a :: r) = true) : pairsOK r = true := by
  cases r with
  | nil => rfl
  | cons b s =>
    rw [pairsOK, Bool.and_eq_true] at h
    exact h.2

theorem pairsOK_dropWhile (p : List Char → Bool) :
    ∀ acc : List (List Char), pairsOK acc = true → pairsOK (acc.dropWhile p) = true := by
  intro acc
  induction acc with
  | nil => exact fun h => h
  | cons a r ih =>
    intro h
    rw [List.dropWhile_cons]
    split
    · exact ih (pairsOK_tail h)
    · exact h

theorem headNE_dropWhile_meta (acc : List (List Char)) :
    headNE (acc.dropWhile isMetaStored) = true := by
  cases hx : acc.dropWhile isMetaStored with
  | nil => rfl
  | cons a r =>
    have hd : (acc.dropWhile isMetaStored).head? = some a := by rw [hx]; rfl
    have hm := head?_dropWhile_not isMetaStored acc hd
    rw [headNE]
    rw [isMetaStored_eq, Bool.or_eq_false_iff] at hm
    rw [hm.1]
    rfl

theorem isExtLine_of_trim_self {t : List Char} (ht : trim t = t)
    (hth : t.head? ≠ some '#') : isExtLine t = false := by
  cases he : isExtLine t with
  | false => rfl
  | true =>
    have := isExtLine_head he
    rw [ht] at this
    exact absurd this hth

theorem rewriteLine_facts (bp orig l : List Char)
    (hbp : (ltrim bp).head? ≠ some '#')
    (horig : orig = [] ∨ ("http".data).isPrefixOf orig = true) :
    isExtLine (rewriteLine bp orig l) = isExtLine l ∧
    (isPlayableLine l = true → isPlayableLine (rewriteLine bp orig l) = true) := by
  simp only [rewriteLine]
  by_cases h2 : trim l = discontLit
  · rw [if_pos h2]
    exact ⟨rfl, fun h => h⟩
  · rw [if_neg h2]
    by_cases h3 : (trim l = [] || ("http".data).isPrefixOf (trim l) ||
        ("blob:".data).isPrefixOf (trim l)) = true
    · rw [if_pos h3]
      exact ⟨rfl, fun h => h⟩
    · rw [if_neg h3]
      have htne : trim l ≠ [] := by
        intro h0
        exact h3 (by rw [h0]; rfl)
      by_cases h4 : (trim l).head? = some '#'
      · rw [if_pos h4]
        by_cases h5 : containsStr (trim l) uriLit = true
        · rw [if_pos h5]
          constructor
          · rw [isExtLine, isExtLine, isExt_trim_eq_ltrim, isExt_trim_eq_ltrim]
            exact isPrefixOf_ltrim_replaceURIs _ bp l (by decide)
          · intro hp
            exfalso
            rw [isPlayableLine, Bool.and_eq_true] at hp
            rw [h4] at hp
            simp at hp
        · rw [if_neg h5]
          exact ⟨rfl, fun h => h⟩
      · rw [if_neg h4]
        have htt : trim (trim l) = trim l := trim_idem l
        have hext_l : isExtLine l = false := by
          cases he : isExtLine l with
          | false => rfl
          | true => exact absurd (isExtLine_head he) h4
        by_cases h5 : (trim l).head? = some '/'
        · rw [if_pos h5]
          rcases horig with horig | horig
          · rw [if_pos horig]
            refine ⟨?_, fun _ => ?_⟩
            · rw [hext_l]
              exact isExtLine_of_trim_self htt h4
            · rw [isPlayableLine, htt]
              cases hx : trim l with
              | nil => exact absurd hx htne
              | cons a r =>
                rw [hx] at h4
                simp only [List.head?_cons] at h4
                have ha : a ≠ '#' := fun hca => h4 (by rw [hca])
                simp [ha]
        -- orig ++ trim l
          · rw [if_neg (by
              intro h0
              rw [h0] at horig
              simp [List.isPrefixOf] at horig)]
            have horigh : (ltrim orig).head? ≠ some '#' := by
              have hh : orig.head? = some 'h' := by
                rw [isPrefixOf_head horig (by decide)]
                rfl
              have : ltrim orig = orig := by
                refine ltrim_eq_self ?_
                intro a ha
                rw [hh] at ha
                simp only [Option.some.injEq] at ha
                subst ha
                rfl
              rw [this, hh]
              simp
            obtain ⟨hm, hpl⟩ := bare_stored_facts horigh htt htne h4
            refine ⟨?_, fun _ => hpl⟩
            rw [hext_l]
            rw [isMetaStored_eq, Bool.or_eq_false_iff] at hm
            exact hm.1
        · rw [if_neg h5]
          obtain ⟨hm, hpl⟩ := bare_stored_facts hbp htt htne h4
          refine ⟨?_, fun _ => hpl⟩
          rw [hext_l]
          rw [isMetaStored_eq, Bool.or_eq_false_iff] at hm
          exact hm.1

theorem filterLoop_wf (kws : List (List Char)) (hasAd : Bool) (bp orig : List Char)
    (hbp : (ltrim bp).head? ≠ some '#')
    (horig : orig = [] ∨ ("http".data).isPrefixOf orig = true) :
    ∀ ls acc, wfExtinf ls = true → pairsOK acc = true →
      (headNE acc = true ∨ ∃ n ns, ls = n :: ns ∧ isPlayableLine n = true) →
      pairsOK (filterLoop kws hasAd bp orig acc ls) = true ∧
      headNE (filterLoop kws hasAd bp orig acc ls) = true := by
  intro ls
  induction ls with
  | nil =>
    intro acc hwf hpk hh
    rcases hh with hh | ⟨n, ns, hls, _⟩
    · exact ⟨hpk, hh⟩
    · exact absurd hls (by simp)
  | cons l ls' ih =>
    intro acc hwf hpk hh
    rw [filterLoop]
    rcases processLine_eq kws hasAd bp orig acc l with ⟨he, _, _⟩ | ⟨he, _, hD⟩ | ⟨he, _, _⟩
    · rw [he]
      exact ih _ (wfExtinf_tail hwf) (pairsOK_dropWhile _ _ hpk)
        (Or.inl (headNE_dropWhile_meta acc))
    · rw [he]
      refine ih _ (wfExtinf_tail hwf) hpk (Or.inl ?_)
      rcases hh with hh | ⟨n, ns, hls, hp⟩
      · exact hh
      · exfalso
        rw [List.cons.injEq] at hls
        have hd : isDiscLine l = true := by
          rw [isDiscLine]
          exact beq_iff_eq.mpr hD
        rw [← hls.1] at hp
        rw [(not_meta_of_playable hp).2] at hd
        exact absurd hd (by simp)
    · rw [he]
      obtain ⟨hext, hplay⟩ := rewriteLine_facts bp orig l hbp horig
      have hpk' : pairsOK (rewriteLine bp orig l :: acc) = true := by
        cases acc with
        | nil => rfl
        | cons b r =>
          rw [pairsOK, Bool.and_eq_true]
          refine ⟨?_, hpk⟩
          rcases hh with hh | ⟨n, ns, hls, hp⟩
          · rw [headNE] at hh
            rw [hh]
            rfl
          · rw [List.cons.injEq] at hls
            rw [← hls.1] at hp
            rw [hplay hp]
            simp
      cases hext' : isExtLine l with
      | false =>
        refine ih _ (wfExtinf_tail hwf) hpk' (Or.inl ?_)
        rw [headNE, hext, hext']
        rfl
      | true =>
        obtain ⟨n, ns, hls', hp⟩ := wfExtinf_ext_head hwf hext'
        exact ih _ (wfExtinf_tail hwf) hpk' (Or.inr ⟨n, ns, hls', hp⟩)

/-- C5, counterexample: a playlist consisting of the single line `#EXTINF:5`
is passed through unchanged, so the output has a duration tag immediately
followed by end-of-document, falsifying the claim as stated for every input. -/
theorem claim5_cex :
    isExtLine (("#EXTINF:5").data) = true ∧
    filterLinesOut defaultKeywords ("#EXTINF:5").data ("http://h/x.m3u8").data =
      [("#EXTINF:5").data] ∧
    danglingFree (filterLinesOut defaultKeywords ("#EXTINF:5").data
      ("http://h/x.m3u8").data) = false := by
  refine ⟨by decide, rfl, by decide⟩

/-- C5 (amended): for every input playlist in which each duration tag is
immediately followed by a playable line, and every base URL whose derived base
path does not begin (after whitespace) with `#`, the output of `filterM3u8Ad`
has no duration tag immediately followed by another duration tag,
end-of-document, or a discontinuity tag with nothing playable after it. -/
theorem claim5_no_dangling_amended (kws : List (List Char)) (content u : List Char)
    (hwf : wfExtinf (splitLines content) = true)
    (hbp : (ltrim (basePathOf u)).head? ≠ some '#') :
    danglingFree (filterLinesOut kws content u) = true := by
  rw [filterLinesOut]
  split
  · rfl
  · apply danglingFree_of_wfExtinf
    rw [wfExtinf_reverse]
    obtain ⟨h1, h2⟩ := filterLoop_wf kws (hasAdSignal kws content) (basePathOf u)
      (originOf u) hbp (originOf_cases u) (splitLines content) [] hwf rfl (Or.inl rfl)
    rw [h1, h2]
    rfl

theorem claim5_witness :
    wfExtinf (splitLines ("#EXTINF:5\nhttp://h/a.ts\n#EXTINF:3\nhttp://h/adjump/x.ts").data)
      = true ∧
    danglingFree (filterLinesOut defaultKeywords
      ("#EXTINF:5\nhttp://h/a.ts\n#EXTINF:3\nhttp://h/adjump/x.ts").data
      ("http://h/p.m3u8").data) = true :=
  ⟨by decide, claim5_no_dangling_amended defaultKeywords
    ("#EXTINF:5\nhttp://h/a.ts\n#EXTINF:3\nhttp://h/adjump/x.ts").data
    ("http://h/p.m3u8").data (by decide) (by decide)⟩

/-! ### Metadata status is preserved by the per-line rewrite -/

theorem isMetaStored_trim_self {t : List Char} (ht : trim t = t) :
    isMetaStored t = (extinfLit.isPrefixOf t || t == discontLit) := by
  rw [isMetaStored, ht]

theorem rewriteLine_meta (bp orig l : List Char)
    (hbp : (ltrim bp).head? ≠ some '#')
    (horig : orig = [] ∨ ("http".data).isPrefixOf orig = true) :
    isMetaStored (rewriteLine bp orig l) = isMetaStored l := by
  simp only [rewriteLine]
  by_cases h2 : trim l = discontLit
  · rw [if_pos h2]
  · rw [if_neg h2]
    by_cases h3 : (trim l = [] || ("http".data).isPrefixOf (trim l) ||
        ("blob:".data).isPrefixOf (trim l)) = true
    · rw [if_pos h3]
    · rw [if_neg h3]
      have htne : trim l ≠ [] := by
        intro h0
        exact h3 (by rw [h0]; rfl)
      have htt : trim (trim l) = trim l := trim_idem l
      by_cases h4 : (trim l).head? = some '#'
      · rw [if_pos h4]
        by_cases h5 : containsStr (trim l) uriLit = true
        · rw [if_pos h5]
          exact isMetaStored_replaceURIs bp l
        · rw [if_neg h5]
      · rw [if_neg h4]
        have hml : isMetaStored l = false :=
          not_isMetaStored_of_head (by rw [← trim_head?]; exact h4)
        rw [hml]
        by_cases h5 : (trim l).head? = some '/'
        · rw [if_pos h5]
          rcases horig with horig | horig
          · rw [if_pos horig]
            refine not_isMetaStored_of_head ?_
            rw [show ltrim (trim l) = trim l from ltrim_trim l, trim_head?] at *
            exact h4
          · rw [if_neg (by
              intro h0
              rw [h0] at horig
              simp [List.isPrefixOf] at horig)]
            have horigh : (ltrim orig).head? ≠ some '#' := by
              have hh : orig.head? = some 'h' := by
                rw [isPrefixOf_head horig (by decide)]
                rfl
              rw [ltrim_eq_self (fun a ha => by
                rw [hh] at ha
                simp only [Option.some.injEq] at ha
                subst ha
                rfl), hh]
              simp
            exact (bare_stored_facts horigh htt htne h4).1
        · rw [if_neg h5]
          exact (bare_stored_facts hbp htt htne h4).1

theorem rewriteLine_not_disc {bp orig l : List Char}
    (hbp : bp = [] ∨ bp.getLast? = some '/')
    (horig : orig = [] ∨ ("http".data).isPrefixOf orig = true)
    (hd : trim l ≠ discontLit) :
    trim (rewriteLine bp orig l) ≠ discontLit := by
  simp only [rewriteLine]
  rw [if_neg hd]
  by_cases h3 : (trim l = [] || ("http".data).isPrefixOf (trim l) ||
      ("blob:".data).isPrefixOf (trim l)) = true
  · rw [if_pos h3]
    exact hd
  · rw [if_neg h3]
    have htne : trim l ≠ [] := by
      intro h0
      exact h3 (by rw [h0]; rfl)
    have htt : trim (trim l) = trim l := trim_idem l
    by_cases h4 : (trim l).head? = some '#'
    · rw [if_pos h4]
      by_cases h5 : containsStr (trim l) uriLit = true
      · rw [if_pos h5]
        intro hcontra
        exact hd ((trim_discont_replaceURIs bp l).mp hcontra)
      · rw [if_neg h5]
        exact hd
    · rw [if_neg h4]
      have hnm : ∀ m : List Char, (ltrim m).head? ≠ some '#' → trim m ≠ discontLit := by
        intro m hm hcontra
        have : isMetaStored m = true := by
          rw [isMetaStored, hcontra]
          simp
        exact hm (isMetaStored_head this)
      by_cases h5 : (trim l).head? = some '/'
      · rw [if_pos h5]
        rcases horig with horig | horig
        · rw [if_pos horig]
          rw [htt]
          exact hd
        · rw [if_neg (by
            intro h0
            rw [h0] at horig
            simp [List.isPrefixOf] at horig)]
          refine hnm _ ?_
          have hh : orig.head? = some 'h' := by
            rw [isPrefixOf_head horig (by decide)]
            rfl
          have horig_eq : ltrim orig = orig := ltrim_eq_self (fun a ha => by
            rw [hh] at ha
            simp only [Option.some.injEq] at ha
            subst ha
            rfl)
          rw [ltrim_append_head orig (trim l) (htt ▸ ltrim_trim l), horig_eq]
          split
          · exact h4
          · rw [hh]
            simp
      · rw [if_neg h5]
        rcases hbp with hbp | hbp
        · rw [hbp]
          simp only [List.nil_append]
          rw [htt]
          exact hd
        · intro hcontra
          have hsl : '/' ∈ bp := List.mem_of_mem_getLast? hbp
          have hsl2 : '/' ∈ bp ++ trim l := List.mem_append_left _ hsl
          have hsl3 : '/' ∈ trim (bp ++ trim l) := mem_trim_of_not_ws hsl2 rfl
          rw [hcontra] at hsl3
          exact absurd hsl3 (by decide)

theorem filterLoop_blocker (kws : List (List Char)) (bp orig d : List Char) :
    ∀ (ls acc : List (List Char)),
      (∃ a x b, acc = a ++ x :: b ∧ isMetaStored x = false ∧ d ∈ b) →
      d ∈ filterLoop kws true bp orig acc ls := by
  intro ls
  induction ls with
  | nil =>
    intro acc ⟨a, x, b, hacc, _, hdb⟩
    rw [filterLoop, hacc]
    exact List.mem_append_right a (List.mem_cons_of_mem x hdb)
  | cons l ls' ih =>
    intro acc ⟨a, x, b, hacc, hx, hdb⟩
    rw [filterLoop]
    rcases processLine_eq kws true bp orig acc l with ⟨he, _, _⟩ | ⟨_, hAd, _⟩ | ⟨he, _, _⟩
    · rw [he, hacc, List.dropWhile_append]
      have hxb : (x :: b).dropWhile isMetaStored = x :: b := by
        rw [List.dropWhile_cons, if_neg (by simp [hx])]
      split
      · rw [hxb]
        exact ih _ ⟨[], x, b, rfl, hx, hdb⟩
      · exact ih _ ⟨a.dropWhile isMetaStored, x, b, rfl, hx, hdb⟩
    · exact absurd hAd (by simp)
    · rw [he]
      exact ih _ ⟨rewriteLine bp orig l :: a, x, b, by rw [hacc]; rfl, hx, hdb⟩

theorem filterLoop_disc_retained (kws : List (List Char)) (bp orig d : List Char)
    (hbp : (ltrim bp).head? ≠ some '#')
    (horig : orig = [] ∨ ("http".data).isPrefixOf orig = true) :
    ∀ (ls acc M rest : List (List Char)),
      acc = M ++ d :: rest → (∀ x ∈ M, isMetaStored x = true) →
      adjReach kws ls = false →
      d ∈ filterLoop kws true bp orig acc ls := by
  intro ls
  induction ls with
  | nil =>
    intro acc M rest hacc _ _
    rw [filterLoop, hacc]
    exact List.mem_append_right M (List.mem_cons_self d rest)
  | cons l ls' ih =>
    intro acc M rest hacc hM hadj
    rw [adjReach, Bool.or_eq_false_iff, Bool.and_eq_false_iff] at hadj
    obtain ⟨hml, hrest⟩ := hadj
    rw [filterLoop]
    rcases processLine_eq kws true bp orig acc l with ⟨_, _, hM'⟩ | ⟨_, hAd, _⟩ | ⟨he, _, _⟩
    · rw [hM'] at hml
      exact absurd hml (by simp)
    · exact absurd hAd (by simp)
    · rw [he]
      have hmeta : isMetaStored (rewriteLine bp orig l) = isMetaStored l :=
        rewriteLine_meta bp orig l hbp horig
      cases hlm : isMetaStored l with
      | false =>
        refine filterLoop_blocker kws bp orig d ls' _
          ⟨[], rewriteLine bp orig l, M ++ d :: rest, by rw [hacc]; rfl, ?_, ?_⟩
        · rw [hmeta, hlm]
        · exact List.mem_append_right M (List.mem_cons_self d rest)
      | true =>
        rcases hrest with hc | hadj'
        · rw [hlm] at hc
          exact absurd hc (by simp)
        · refine ih _ (rewriteLine bp orig l :: M) rest (by rw [hacc]; rfl) ?_ hadj'
          intro x hxm
          rcases List.mem_cons.mp hxm with rfl | hxm'
          · rw [hmeta, hlm]
          · exact hM x hxm'

/-- C2: the hybrid discontinuity policy.  (A) If no line of the document
contains a configured ad keyword, the output contains zero discontinuity
lines.  (B) If at least one line matches the ad rule, every discontinuity line
that is not reachable by an ad line backtracking through metadata-or-ad lines
is retained in the output.  The keyword side conditions record that configured
keywords never contain a line break (they are produced by splitting the
configuration string on newlines/commas and trimming); the base-path side
condition excludes base URLs whose path itself looks like a tag. -/
theorem claim2_hybrid (kws : List (List Char)) (content u : List Char)
    (hk : ∀ k ∈ kws, ('\n' ∉ k) ∧ ('\r' ∉ k))
    (hbp : (ltrim (basePathOf u)).head? ≠ some '#') :
    ((∀ l ∈ splitLines content, ∀ k' ∈ kws, containsStr l k' = false) →
      (filterLinesOut kws content u).countP (fun x => isDiscLine x) = 0) ∧
    ((∃ l ∈ splitLines content, matchLine kws l = true) →
      ∀ pre d suf, splitLines content = pre ++ d :: suf →
        isDiscLine d = true → matchLine kws d = false → adjReach kws suf = false →
        d ∈ filterLinesOut kws content u) := by
  constructor
  · intro hfree
    have hAdS : hasAdSignal kws content = false := by
      cases hq : hasAdSignal kws content with
      | false => rfl
      | true =>
        exfalso
        rw [hasAdSignal] at hq
        obtain ⟨k, hk', hck⟩ := List.any_eq_true.mp hq
        obtain ⟨l, hl, hcl⟩ := containsStr_splitLines (hk k hk').1 (hk k hk').2 hck
        have := hfree l hl k hk'
        rw [hcl] at this
        exact absurd this (by simp)
    rw [List.countP_eq_zero]
    intro x hx
    obtain ⟨l, hl, rfl, _, hNAd⟩ := filterLinesOut_mem hx
    have hnd : trim (rewriteLine (basePathOf u) (originOf u) l) ≠ discontLit := by
      refine rewriteLine_not_disc ?_ (originOf_cases u) (hNAd hAdS)
      by_cases hb : basePathOf u = []
      · exact Or.inl hb
      · exact Or.inr (basePathOf_getLast hb)
    simp only [isDiscLine, beq_iff_eq]
    exact hnd
  · intro hex pre d suf hsplit hdisc hmatch hadj
    have hAdS : hasAdSignal kws content = true := by
      obtain ⟨l, hl, hm⟩ := hex
      rw [matchLine] at hm
      obtain ⟨k, hk', hck⟩ := List.any_eq_true.mp hm
      rw [hasAdSignal]
      exact List.any_eq_true.mpr ⟨k, hk',
        containsStr_of_line hl (containsStr_of_trim hck)⟩
    have hcne : content ≠ [] := by
      intro h0
      rw [h0, show splitLines [] = [[]] from rfl] at hsplit
      cases pre with
      | nil =>
        simp only [List.nil_append, List.cons.injEq] at hsplit
        rw [← hsplit.1] at hdisc
        exact absurd hdisc (by decide)
      | cons p ps =>
        have hlen := congrArg List.length hsplit
        simp at hlen
    rw [filterLinesOut, if_neg hcne, hAdS, hsplit, List.mem_reverse]
    rw [filterLoop_append]
    rw [filterLoop]
    have hrd : rewriteLine (basePathOf u) (originOf u) d = d := by
      simp only [rewriteLine]
      rw [isDiscLine] at hdisc
      rw [if_pos (eq_of_beq hdisc)]
    have hstep : processLine kws true (basePathOf u) (originOf u)
        (filterLoop kws true (basePathOf u) (originOf u) [] pre) d =
        d :: filterLoop kws true (basePathOf u) (originOf u) [] pre := by
      rcases processLine_eq kws true (basePathOf u) (originOf u)
        (filterLoop kws true (basePathOf u) (originOf u) [] pre) d with
        ⟨_, _, hm⟩ | ⟨_, hAd, _⟩ | ⟨he, _, _⟩
      · rw [hmatch] at hm
        exact absurd hm (by simp)
      · exact absurd hAd (by simp)
      · rw [he, hrd]
    rw [hstep]
    refine filterLoop_disc_retained kws (basePathOf u) (originOf u) d hbp
      (originOf_cases u) suf _ [] _ rfl (by simp) hadj

/-- C2: witness — a discontinuity tag not adjacent to the removed ad segment
survives in aggressive mode. -/
theorem claim2_witness :
    ("#EXT-X-DISCONTINUITY").data ∈ filterLinesOut defaultKeywords
      ("#EXT-X-DISCONTINUITY\nhttp://h/a.ts\nhttp://h/adjump/x.ts").data
      ("http://h/p.m3u8").data :=
  (claim2_hybrid defaultKeywords
      ("#EXT-X-DISCONTINUITY\nhttp://h/a.ts\nhttp://h/adjump/x.ts").data
      ("http://h/p.m3u8").data (by decide) (by decide)).2
    (by decide)
    [] ("#EXT-X-DISCONTINUITY").data
    [("http://h/a.ts").data, ("http://h/adjump/x.ts").data]
    (by decide) (by decide) (by decide) (by decide)

/-- C10: witness for the amended theorem — all output lines of a concrete
ad-carrying playlist are keyword-free and the ad line is gone. -/
theorem claim10_witness :
    (∀ x ∈ filterLinesOut defaultKeywords
        ("#EXTINF:5\nhttp://h/a.ts\nhttp://h/adjump/x.ts").data ("http://h/p.m3u8").data,
      ∀ k ∈ defaultKeywords, containsStr x k = false) ∧
    (∀ l ∈ splitLines ("#EXTINF:5\nhttp://h/a.ts\nhttp://h/adjump/x.ts").data,
      matchLine defaultKeywords l = true →
      l ∉ filterLinesOut defaultKeywords
        ("#EXTINF:5\nhttp://h/a.ts\nhttp://h/adjump/x.ts").data ("http://h/p.m3u8").data) :=
  claim10_keyword_free_amended defaultKeywords
    ("#EXTINF:5\nhttp://h/a.ts\nhttp://h/adjump/x.ts").data
    ("http://h/p.m3u8").data (by decide)

/-! ### Idempotence of `replaceURIs` -/

theorem takeWhile_quote_free {X r : List Char} (hq : '"' ∉ X) :
    (X ++ '"' :: r).takeWhile (fun c => c ≠ '"') = X := by
  induction X with
  | nil => simp [List.takeWhile_cons]
  | cons a t ih =>
    have ha : a ≠ '"' := fun h => hq (by simp [h])
    rw [List.cons_append, List.takeWhile_cons, if_pos (by simp [ha])]
    rw [ih fun h => hq (List.mem_cons_of_mem _ h)]

theorem uriBody_out {X r : List Char} (hq : '"' ∉ X) (hX : X ≠ []) :
    uriBody (uriLit ++ X ++ '"' :: r) = some (X, r) := by
  rw [uriBody]
  have hp : uriLit.isPrefixOf (uriLit ++ X ++ '"' :: r) = true :=
    (isPrefixOf_iff _ _).mpr ⟨X ++ '"' :: r, by simp⟩
  rw [if_pos hp]
  have hdrop : (uriLit ++ X ++ '"' :: r).drop 5 = X ++ '"' :: r := by
    rw [List.append_assoc, show (5 : Nat) = uriLit.length from rfl, List.drop_left]
  dsimp only
  rw [hdrop, takeWhile_quote_free hq]
  rw [if_neg hX]
  have hdrop2 : (X ++ '"' :: r).drop X.length = '"' :: r := List.drop_left X _
  have hdrop3 : (X ++ '"' :: r).drop (X.length + 1) = r := by
    rw [show X ++ '"' :: r = (X ++ ['"']) ++ r by simp,
      show X.length + 1 = (X ++ ['"']).length by simp]
    exact List.drop_left _ _
  rw [hdrop2, if_pos (show ('"' :: r).head? = some '"' from rfl), hdrop3]

theorem uriBody_quote_head (m : List Char) : uriBody (uriLit ++ '"' :: m) = none := by
  rw [uriBody]
  have hp : uriLit.isPrefixOf (uriLit ++ '"' :: m) = true :=
    (isPrefixOf_iff _ _).mpr ⟨'"' :: m, rfl⟩
  rw [if_pos hp]
  have hdrop : (uriLit ++ '"' :: m).drop 5 = '"' :: m := by
    rw [show (5 : Nat) = uriLit.length from rfl, List.drop_left]
  dsimp only
  rw [hdrop]
  have hbody : ('"' :: m).takeWhile (fun c => c ≠ '"') = [] := by
    rw [List.takeWhile_cons]
    simp
  rw [hbody]
  rfl

theorem uriLit_prefix_transfer {b b' : List Char} (hb : uriLit.isPrefixOf b = true)
    (hb' : uriLit.isPrefixOf b' = true) (x : List Char) :
    uriLit.isPrefixOf (x ++ b) = uriLit.isPrefixOf (x ++ b') := by
  suffices h : ∀ c c' : List Char, uriLit.isPrefixOf c = true →
      uriLit.isPrefixOf c' = true → uriLit.isPrefixOf (x ++ c) = true →
      uriLit.isPrefixOf (x ++ c') = true by
    cases hx : uriLit.isPrefixOf (x ++ b) with
    | true => rw [h b b' hb hb' hx]
    | false =>
      cases hx' : uriLit.isPrefixOf (x ++ b') with
      | false => rfl
      | true =>
        rw [h b' b hb' hb hx'] at hx
        exact hx.symm
  intro c c' hc hc' hxc
  rcases isPrefixOf_append_cases hxc with h1 | ⟨s₂, hs, hne, hpb⟩
  · exact isPrefixOf_append_left _ h1
  · obtain ⟨c₁, rfl⟩ := (isPrefixOf_iff _ _).mp hc
    have hlen : s₂.length ≤ uriLit.length := by
      have hl2 := congrArg List.length hs
      simp only [List.length_append] at hl2
      omega
    have hs₂ : s₂.isPrefixOf uriLit = true :=
      List.isPrefixOf_iff_prefix.mpr
        (List.prefix_of_prefix_length_le (List.isPrefixOf_iff_prefix.mp hpb)
          ⟨c₁, rfl⟩ hlen)
    cases x with
    | nil =>
      rw [List.nil_append]
      exact hc'
    | cons z zs =>
      exfalso
      have hxlen : (z :: zs).length + s₂.length = 5 := by
        have hl2 := congrArg List.length hs
        simp only [List.length_append] at hl2
        rw [show uriLit.length = 5 from rfl] at hl2
        omega
      have hs₂eq : s₂ = uriLit.drop (z :: zs).length := by
        rw [hs, List.drop_left]
      have hpos : 1 ≤ (z :: zs).length := by simp
      have hs₂pos : 1 ≤ s₂.length := by
        cases s₂ with
        | nil => exact absurd rfl hne
        | cons w ws => simp
      have h14 : (z :: zs).length = 1 ∨ (z :: zs).length = 2 ∨
          (z :: zs).length = 3 ∨ (z :: zs).length = 4 := by omega
      rcases h14 with h | h | h | h <;>
        (rw [hs₂eq, h] at hs₂; revert hs₂; decide)

theorem uriBody_none_cases {l : List Char} (h : uriBody l = none) :
    uriLit.isPrefixOf l = false ∨
    (∃ t, l = uriLit ++ t ∧ (t = [] ∨ t.head? = some '"')) ∨
    (∃ t, l = uriLit ++ t ∧ '"' ∉ t) := by
  rw [uriBody] at h
  by_cases hp : uriLit.isPrefixOf l = true
  · rw [if_pos hp] at h
    obtain ⟨t, rfl⟩ := (isPrefixOf_iff _ _).mp hp
    right
    have hdrop : (uriLit ++ t).drop 5 = t := by
      rw [show (5 : Nat) = uriLit.length from rfl, List.drop_left]
    rw [hdrop] at h
    by_cases hb : t.takeWhile (fun c => c ≠ '"') = []
    · left
      refine ⟨t, rfl, ?_⟩
      cases t with
      | nil => exact Or.inl rfl
      | cons a r =>
        rw [List.takeWhile_cons] at hb
        by_cases ha : a = '"'
        · exact Or.inr (by rw [ha]; rfl)
        · rw [if_pos (by simp [ha])] at hb
          simp at hb
    · rw [if_neg hb] at h
      have hdw : t.drop (t.takeWhile (fun c => c ≠ '"')).length =
          t.dropWhile (fun c => c ≠ '"') := by
        have h0 := List.takeWhile_append_dropWhile (fun c => c ≠ '"') t
        calc t.drop (t.takeWhile (fun c => c ≠ '"')).length
            = (t.takeWhile (fun c => c ≠ '"') ++
                t.dropWhile (fun c => c ≠ '"')).drop
                  (t.takeWhile (fun c => c ≠ '"')).length := by rw [h0]
          _ = t.dropWhile (fun c => c ≠ '"') := List.drop_left _ _
      rw [hdw] at h
      cases hx : t.dropWhile (fun c => c ≠ '"') with
      | nil =>
        right
        refine ⟨t, rfl, ?_⟩
        intro hq
        have := (List.takeWhile_append_dropWhile (fun c => c ≠ '"') t)
        rw [hx, List.append_nil] at this
        rw [← this] at hq
        exact absurd (List.mem_takeWhile_imp hq) (by simp)
      | cons a r =>
        exfalso
        have hd : (t.dropWhile (fun c => c ≠ '"')).head? = some a := by rw [hx]; rfl
        have ha := head?_dropWhile_not _ _ hd
        simp only [decide_eq_false_iff_not, not_not] at ha
        rw [hx] at h
        rw [ha] at h
        simp at h
  · left
    simp only [Bool.not_eq_true] at hp
    exact hp

theorem split_position {t a b : List Char}
    (hre : 'R' :: 'I' :: '=' :: '"' :: t = a ++ b)
    (hb : uriLit.isPrefixOf b = true) :
    ∃ a2, a = 'R' :: 'I' :: '=' :: '"' :: a2 ∧ t = a2 ++ b := by
  have hbh : b.head? = some 'U' := by
    rw [isPrefixOf_head hb (by decide), uriLit_head]
  rcases a with _ | ⟨x1, a⟩
  · rw [List.nil_append] at hre
    rw [← hre] at hbh
    simp at hbh
  rcases a with _ | ⟨x2, a⟩
  · simp only [List.cons_append, List.nil_append, List.cons.injEq] at hre
    rw [← hre.2] at hbh
    simp at hbh
  rcases a with _ | ⟨x3, a⟩
  · simp only [List.cons_append, List.nil_append, List.cons.injEq] at hre
    rw [← hre.2.2] at hbh
    simp at hbh
  rcases a with _ | ⟨x4, a⟩
  · simp only [List.cons_append, List.nil_append, List.cons.injEq] at hre
    rw [← hre.2.2.2] at hbh
    simp at hbh
  simp only [List.cons_append, List.cons.injEq] at hre
  obtain ⟨rfl, rfl, rfl, rfl, hrest⟩ := hre
  exact ⟨a, rfl, hrest⟩

theorem uriBody_none_replaceURIs {bp : List Char} {c : Char} {rest : List Char}
    (h : uriBody (c :: rest) = none) :
    uriBody (c :: replaceURIs bp rest) = none := by
  rcases replaceURIs_agree bp rest with heq | ⟨a, b, b', hl, hr, hbx, hbx'⟩
  · rw [heq]
    exact h
  · rcases uriBody_none_cases h with hp | ⟨t, ht, hte⟩ | ⟨t, ht, htq⟩
    · cases hq : uriBody (c :: replaceURIs bp rest) with
      | none => rfl
      | some v =>
        exfalso
        obtain ⟨body, rem⟩ := v
        obtain ⟨hp', _, _, _⟩ := uriBody_spec hq
        rw [hr] at hp'
        rw [show c :: (a ++ b') = (c :: a) ++ b' from rfl] at hp'
        rw [← uriLit_prefix_transfer hbx hbx' (c :: a)] at hp'
        rw [show (c :: a) ++ b = c :: (a ++ b) from rfl, ← hl] at hp'
        rw [hp'] at hp
        exact absurd hp (by simp)
    · have huri : uriLit = 'U' :: 'R' :: 'I' :: '=' :: '"' :: [] := rfl
      rw [huri] at ht
      simp only [List.cons_append, List.nil_append, List.cons.injEq] at ht
      obtain ⟨rfl, hrest⟩ := ht
      rw [hl] at hrest
      obtain ⟨a2, ha, ht2⟩ := split_position hrest.symm hbx
      rcases hte with hte | hte
      · exfalso
        rw [hte] at ht2
        obtain ⟨ha2, hb0⟩ := List.append_eq_nil.mp ht2.symm
        rw [hb0] at hbx
        exact absurd hbx (by decide)
      · cases a2 with
        | nil =>
          exfalso
          rw [List.nil_append] at ht2
          rw [ht2] at hte
          have hbh : b.head? = some 'U' := by
            rw [isPrefixOf_head hbx (by decide), uriLit_head]
          rw [hbh] at hte
          simp at hte
        | cons z a3 =>
          have hz : z = '"' := by
            rw [ht2] at hte
            simpa using hte
          rw [hr, ha, hz]
          rw [show 'U' :: ('R' :: 'I' :: '=' :: '"' :: '"' :: a3 ++ b') =
            uriLit ++ '"' :: (a3 ++ b') from rfl]
          exact uriBody_quote_head _
    · exfalso
      have huri : uriLit = 'U' :: 'R' :: 'I' :: '=' :: '"' :: [] := rfl
      rw [huri] at ht
      simp only [List.cons_append, List.nil_append, List.cons.injEq] at ht
      obtain ⟨rfl, hrest⟩ := ht
      rw [hl] at hrest
      obtain ⟨a2, ha, ht2⟩ := split_position hrest.symm hbx
      have hqb : '"' ∈ b := by
        obtain ⟨s, rfl⟩ := (isPrefixOf_iff _ _).mp hbx
        exact List.mem_append_left s (by decide)
      exact htq (ht2 ▸ List.mem_append_right a2 hqb)

theorem replaceURIs_some_of (bp : List Char) {l body rem : List Char}
    (h : uriBody l = some (body, rem)) :
    replaceURIs bp l =
      (if ("http".data).isPrefixOf body || ("/".data).isPrefixOf body then
        uriLit ++ body ++ ['"']
      else
        uriLit ++ bp ++ body ++ ['"']) ++ replaceURIs bp rem := by
  cases l with
  | nil => simp [uriBody] at h
  | cons c rest => exact replaceURIs_some h

theorem replaceURIs_none_of (bp : List Char) {l : List Char} (hne : l ≠ [])
    (h : uriBody l = none) :
    replaceURIs bp l = l.head?.toList ++ replaceURIs bp l.tail := by
  cases l with
  | nil => exact absurd rfl hne
  | cons c rest =>
    rw [replaceURIs_none h]
    rfl

theorem replaceURIs_idem (bp : List Char) (hq : '"' ∉ bp)
    (hbp : bp = [] ∨ ("http".data).isPrefixOf bp = true) :
    ∀ l, replaceURIs bp (replaceURIs bp l) = replaceURIs bp l := by
  intro l
  induction l using replaceURIs.induct bp with
  | case1 =>
    rw [replaceURIs_nil, replaceURIs_nil]
  | case2 c t body rem h ih =>
    obtain ⟨hp, hbody, hbtw, _⟩ := uriBody_spec h
    have hqb : '"' ∉ body := by
      intro hmem
      rw [hbtw] at hmem
      exact absurd (List.mem_takeWhile_imp hmem) (by simp)
    rw [replaceURIs_some h]
    by_cases hcond : (("http".data).isPrefixOf body || ("/".data).isPrefixOf body) = true
    · rw [if_pos hcond]
      have hsh : (uriLit ++ body ++ ['"']) ++ replaceURIs bp rem =
          uriLit ++ body ++ '"' :: replaceURIs bp rem := by simp
      rw [hsh]
      have hub : uriBody (uriLit ++ body ++ '"' :: replaceURIs bp rem) =
          some (body, replaceURIs bp rem) := by
        rw [List.append_assoc]
        rw [← List.append_assoc]
        exact uriBody_out hqb hbody
      rw [replaceURIs_some_of bp hub, if_pos hcond, ih]
      simp
    · rw [if_neg hcond]
      have hXq : '"' ∉ bp ++ body := by
        intro hmem
        rcases List.mem_append.mp hmem with hm | hm
        · exact hq hm
        · exact hqb hm
      have hXne : bp ++ body ≠ [] := by
        intro h0
        exact hbody (List.append_eq_nil.mp h0).2
      have hsh : (uriLit ++ bp ++ body ++ ['"']) ++ replaceURIs bp rem =
          uriLit ++ (bp ++ body) ++ '"' :: replaceURIs bp rem := by simp
      rw [hsh]
      have hub : uriBody (uriLit ++ (bp ++ body) ++ '"' :: replaceURIs bp rem) =
          some (bp ++ body, replaceURIs bp rem) := uriBody_out hXq hXne
      rw [replaceURIs_some_of bp hub]
      rcases hbp with hbp0 | hbph
      · rw [hbp0] at ih ⊢
        simp only [List.nil_append]
        rw [if_neg hcond, ih]
        simp
      · rw [if_pos (by
          rw [Bool.or_eq_true_iff]
          exact Or.inl (isPrefixOf_append_left body hbph))]
        rw [ih]
        simp
  | case3 c t h ih =>
    rw [replaceURIs_none h]
    rw [replaceURIs_none (uriBody_none_replaceURIs h), ih]

theorem replaceURIs_eq_nil_iff (bp : List Char) :
    ∀ l, replaceURIs bp l = [] ↔ l = [] := by
  intro l
  induction l using replaceURIs.induct bp with
  | case1 => simp [replaceURIs_nil]
  | case2 c t body rem h ih =>
    rw [replaceURIs_some h]
    constructor
    · intro h0
      exfalso
      obtain ⟨h1, _⟩ := List.append_eq_nil.mp h0
      split at h1 <;> simp [uriLit] at h1
    · intro h0
      simp at h0
  | case3 c t h ih =>
    rw [replaceURIs_none h]
    simp

theorem mem_of_mem_trim {l : List Char} {ch : Char} (h : ch ∈ trim l) : ch ∈ l := by
  obtain ⟨w₁, w₂, hl, _, _⟩ := trim_decomp l
  rw [hl]
  exact List.mem_append_left w₂ (List.mem_append_right w₁ h)

theorem mem_replaceURIs {bp : List Char} {ch : Char} :
    ∀ l, ch ∈ replaceURIs bp l → ch ∈ l ∨ ch ∈ bp ∨ ch ∈ uriLit ∨ ch = '"' := by
  intro l
  induction l using replaceURIs.induct bp with
  | case1 =>
    rw [replaceURIs_nil]
    intro h
    simp at h
  | case2 c t body rem h ih =>
    obtain ⟨_, _, hbtw, hrem⟩ := uriBody_spec h
    intro hm
    rw [replaceURIs_some h] at hm
    have hbodysub : ∀ x, x ∈ body → x ∈ c :: t := by
      intro x hx
      rw [hbtw] at hx
      exact (List.drop_sublist 5 (c :: t)).subset ((List.takeWhile_sublist _).subset hx)
    have hremsub : ∀ x, x ∈ rem → x ∈ c :: t := by
      intro x hx
      rw [hrem] at hx
      exact (List.drop_sublist 5 (c :: t)).subset ((List.drop_sublist _ _).subset hx)
    rcases List.mem_append.mp hm with hm1 | hm2
    · split at hm1
      · rcases List.mem_append.mp hm1 with hm3 | hm4
        · rcases List.mem_append.mp hm3 with hm5 | hm6
          · exact Or.inr (Or.inr (Or.inl hm5))
          · exact Or.inl (hbodysub ch hm6)
        · simp only [List.mem_singleton] at hm4
          exact Or.inr (Or.inr (Or.inr hm4))
      · rcases List.mem_append.mp hm1 with hm3 | hm4
        · rcases List.mem_append.mp hm3 with hm5 | hm6
          · rcases List.mem_append.mp hm5 with hm7 | hm8
            · exact Or.inr (Or.inr (Or.inl hm7))
            · exact Or.inr (Or.inl hm8)
          · exact Or.inl (hbodysub ch hm6)
        · simp only [List.mem_singleton] at hm4
          exact Or.inr (Or.inr (Or.inr hm4))
    · rcases ih hm2 with h1 | h2
      · exact Or.inl (hremsub ch h1)
      · exact Or.inr h2
  | case3 c t h ih =>
    intro hm
    rw [replaceURIs_none h] at hm
    rcases List.mem_cons.mp hm with rfl | hm2
    · exact Or.inl (List.mem_cons_self _ _)
    · rcases ih hm2 with h1 | h2
      · exact Or.inl (List.mem_cons_of_mem _ h1)
      · exact Or.inr h2

theorem getLast?_append_right {x y : List Char} (hy : y ≠ []) :
    (x ++ y).getLast? = y.getLast? := by
  rw [List.getLast?_append]
  cases hg : y.getLast? with
  | none =>
    exfalso
    cases y with
    | nil => exact hy rfl
    | cons a t =>
      rw [List.getLast?_eq_getLast _ (by simp)] at hg
      simp at hg
  | some a => rfl

theorem getLast?_replaceURIs (bp : List Char) :
    ∀ l, (replaceURIs bp l).getLast? = l.getLast? ∨
      (replaceURIs bp l).getLast? = some '"' := by
  intro l
  induction l using replaceURIs.induct bp with
  | case1 => left; rw [replaceURIs_nil]
  | case2 c t body rem h ih =>
    obtain ⟨_, _, _, hrem⟩ := uriBody_spec h
    rw [replaceURIs_some h]
    by_cases hr : rem = []
    · right
      have hrr : replaceURIs bp rem = [] := (replaceURIs_eq_nil_iff bp rem).mpr hr
      rw [hrr, List.append_nil]
      split
      · rw [show uriLit ++ body ++ ['"'] = (uriLit ++ body) ++ ['"'] by simp,
          List.getLast?_concat]
      · rw [show uriLit ++ bp ++ body ++ ['"'] = (uriLit ++ bp ++ body) ++ ['"'] by simp,
          List.getLast?_concat]
    · have hrr : replaceURIs bp rem ≠ [] := by
        intro h0
        exact hr ((replaceURIs_eq_nil_iff bp rem).mp h0)
      rw [getLast?_append_right hrr]
      have hlast : rem.getLast? = (c :: t).getLast? := by
        have hsplit : c :: t = (c :: t).take (5 + (body.length + 1)) ++ rem := by
          rw [hrem, List.drop_drop]
          exact (List.take_append_drop _ _).symm
        rw [hsplit, getLast?_append_right hr]
      rcases ih with h1 | h1
      · left
        rw [h1, hlast]
      · right
        exact h1
  | case3 c t h ih =>
    rw [replaceURIs_none h]
    by_cases ht : t = []
    · left
      rw [ht, replaceURIs_nil]
    · have hrr : replaceURIs bp t ≠ [] := by
        intro h0
        exact ht ((replaceURIs_eq_nil_iff bp t).mp h0)
      rw [show c :: replaceURIs bp t = [c] ++ replaceURIs bp t from rfl,
        getLast?_append_right hrr]
      rw [show c :: t = [c] ++ t from rfl, getLast?_append_right ht]
      exact ih

theorem mem_http_mem_https {ch : Char} (h : ch ∈ ("http://").data) :
    ch ∈ ("https://").data := by
  have h' : ch ∈ ['h', 't', 't', 'p', ':', '/', '/'] := h
  have hg : ch ∈ ['h', 't', 't', 'p', 's', ':', '/', '/'] := by
    simp only [List.mem_cons, List.not_mem_nil, or_false] at h' ⊢
    tauto
  exact hg

theorem mem_originOf {u : List Char} {ch : Char} (h : ch ∈ originOf u) :
    ch ∈ u ∨ ch ∈ ("https://").data := by
  rw [originOf] at h
  split at h
  · dsimp only at h
    split at h
    · simp at h
    · rcases List.mem_append.mp h with h1 | h2
      · exact Or.inr (mem_http_mem_https h1)
      · exact Or.inl ((List.drop_sublist 7 u).subset ((List.takeWhile_sublist _).subset h2))
  · split at h
    · dsimp only at h
      split at h
      · simp at h
      · rcases List.mem_append.mp h with h1 | h2
        · exact Or.inr h1
        · exact Or.inl ((List.drop_sublist 8 u).subset ((List.takeWhile_sublist _).subset h2))
    · simp at h

theorem mem_basePathOf {u : List Char} {ch : Char} (h : ch ∈ basePathOf u) : ch ∈ u := by
  rw [basePathOf, List.mem_reverse] at h
  exact List.mem_reverse.mp ((List.dropWhile_suffix _).sublist.subset h)

theorem mem_rewriteLine {bp orig line : List Char} {ch : Char}
    (hm : ch ∈ rewriteLine bp orig line) :
    ch ∈ line ∨ ch ∈ bp ∨ ch ∈ orig ∨ ch ∈ uriLit ∨ ch = '"' := by
  simp only [rewriteLine] at hm
  split at hm
  · exact Or.inl hm
  · split at hm
    · exact Or.inl hm
    · split at hm
      · split at hm
        · rcases mem_replaceURIs line hm with h | h
          · exact Or.inl h
          · exact Or.inr (Or.inl (by tauto)) |>.elim (fun _ => by tauto) (fun _ => by tauto)
        · exact Or.inl hm
      · split at hm
        · split at hm
          · exact Or.inl (mem_of_mem_trim hm)
          · rcases List.mem_append.mp hm with h | h
            · exact Or.inr (Or.inr (Or.inl h))
            · exact Or.inl (mem_of_mem_trim h)
        · rcases List.mem_append.mp hm with h | h
          · exact Or.inr (Or.inl h)
          · exact Or.inl (mem_of_mem_trim h)

theorem trim_getLast_ne_cr (l : List Char) : (trim l).getLast? ≠ some '\r' := by
  intro h
  exact absurd (trim_getLast_not_ws h) (by decide)

theorem rewriteLine_last_not_cr {bp orig line : List Char}
    (hline : line.getLast? ≠ some '\r') :
    (rewriteLine bp orig line).getLast? ≠ some '\r' := by
  simp only [rewriteLine]
  split
  · exact hline
  · split
    · exact hline
    · split
      · split
        · rcases getLast?_replaceURIs bp line with h | h
          · rw [h]; exact hline
          · rw [h]; intro h0; simp at h0
        · exact hline
      · rename_i h3 _
        have htne : trim line ≠ [] := by
          intro h0
          exact h3 (by rw [h0]; rfl)
        split
        · split
          · exact trim_getLast_ne_cr line
          · rw [getLast?_append_right htne]
            exact trim_getLast_ne_cr line
        · rw [getLast?_append_right htne]
          exact trim_getLast_ne_cr line

theorem cond3_false_of_head {t : List Char} {c : Char} (hh : t.head? = some c)
    (hc1 : c ≠ 'h') (hc2 : c ≠ 'b') :
    (t = [] || ("http".data).isPrefixOf t || ("blob:".data).isPrefixOf t) = false := by
  have hne : t ≠ [] := by
    intro h0
    rw [h0] at hh
    simp at hh
  have h1 : ("http".data).isPrefixOf t = false := by
    cases hp : ("http".data).isPrefixOf t with
    | false => rfl
    | true =>
      exfalso
      have hx := isPrefixOf_head hp (by decide)
      rw [hh, show ("http".data).head? = some 'h' from rfl] at hx
      simp only [Option.some.injEq] at hx
      exact hc1 hx
  have h2 : ("blob:".data).isPrefixOf t = false := by
    cases hp : ("blob:".data).isPrefixOf t with
    | false => rfl
    | true =>
      exfalso
      have hx := isPrefixOf_head hp (by decide)
      rw [hh, show ("blob:".data).head? = some 'b' from rfl] at hx
      simp only [Option.some.injEq] at hx
      exact hc2 hx
  rw [decide_eq_false hne, h1, h2]
  rfl

theorem trim_append_http {p t : List Char}
    (hp : ("http".data).isPrefixOf p = true) :
    ("http".data).isPrefixOf (trim (p ++ t)) = true := by
  have hph : p.head? = some 'h' := by
    rw [isPrefixOf_head hp (by decide)]
    rfl
  have hpne : p ≠ [] := by
    intro h0
    rw [h0] at hph
    simp at hph
  have hlt : ltrim (p ++ t) = p ++ t := by
    refine ltrim_eq_self ?_
    intro a ha
    rw [head?_append_of_ne_nil hpne, hph] at ha
    simp only [Option.some.injEq] at ha
    subst ha
    rfl
  rw [isPrefixOf_trim _ _ ?_, hlt]
  · exact isPrefixOf_append_left t hp
  · intro a ha
    rw [show ("http".data).getLast? = some 'p' from rfl] at ha
    simp only [Option.some.injEq] at ha
    subst ha
    rfl

theorem trim_ne_discont_of_http {x : List Char}
    (h : ("http".data).isPrefixOf (trim x) = true) : trim x ≠ discontLit := by
  intro h0
  rw [h0] at h
  exact absurd h (by decide)

theorem trim_rewriteLine_ne_discont {bp orig l : List Char}
    (hbp : bp = [] ∨ ("http".data).isPrefixOf bp = true)
    (horig : orig = [] ∨ ("http".data).isPrefixOf orig = true)
    (hd : trim l ≠ discontLit) : trim (rewriteLine bp orig l) ≠ discontLit := by
  simp only [rewriteLine]
  split
  · exact hd
  · split
    · exact hd
    · split
      · split
        · intro h0
          exact hd ((trim_discont_replaceURIs bp l).mp h0)
        · exact hd
      · split
        · split
          · rw [trim_idem]
            exact hd
          · rename_i horigne
            rcases horig with h | h
            · exact absurd h horigne
            · exact trim_ne_discont_of_http (trim_append_http h)
        · rcases hbp with h | h
          · rw [h, List.nil_append, trim_idem]
            exact hd
          · exact trim_ne_discont_of_http (trim_append_http h)

theorem rewriteLine_idem {bp orig : List Char} (hq : '"' ∉ bp)
    (hbp : bp = [] ∨ ("http".data).isPrefixOf bp = true)
    (horig : orig = [] ∨ ("http".data).isPrefixOf orig = true)
    (l : List Char) :
    rewriteLine bp orig (rewriteLine bp orig l) = rewriteLine bp orig l := by
  by_cases h2 : trim l = discontLit
  · have hx : rewriteLine bp orig l = l := by
      simp only [rewriteLine]
      rw [if_pos h2]
    rw [hx]
    exact hx
  · by_cases h3 : (trim l = [] || ("http".data).isPrefixOf (trim l) ||
        ("blob:".data).isPrefixOf (trim l)) = true
    · have hx : rewriteLine bp orig l = l := by
        simp only [rewriteLine]
        rw [if_neg h2, if_pos h3]
      rw [hx]
      exact hx
    · by_cases h4 : (trim l).head? = some '#'
      · by_cases h5 : containsStr (trim l) uriLit = true
        · have hx : rewriteLine bp orig l = replaceURIs bp l := by
            simp only [rewriteLine]
            rw [if_neg h2, if_neg h3, if_pos h4, if_pos h5]
          rw [hx]
          have hhx : (trim (replaceURIs bp l)).head? = some '#' := by
            rw [trim_head?, ltrim_head_replaceURIs, ← trim_head?]
            exact h4
          have hd2 : trim (replaceURIs bp l) ≠ discontLit := fun h0 =>
            h2 ((trim_discont_replaceURIs bp l).mp h0)
          have hc3 := cond3_false_of_head hhx (by decide) (by decide)
          have hc5 : containsStr (trim (replaceURIs bp l)) uriLit = true := by
            rcases replaceURIs_agree bp l with heq | ⟨a, b, b', hl, hr, hb, hb'⟩
            · rw [heq]
              exact h5
            · exact containsStr_uriLit_of_agree hr hb'
          simp only [rewriteLine]
          rw [if_neg hd2, if_neg (by simp [hc3]), if_pos hhx, if_pos hc5]
          exact replaceURIs_idem bp hq hbp l
        · have hx : rewriteLine bp orig l = l := by
            simp only [rewriteLine]
            rw [if_neg h2, if_neg h3, if_pos h4, if_neg h5]
          rw [hx]
          exact hx
      · by_cases h6 : (trim l).head? = some '/'
        · rcases horig with horigE | horigP
          · have hx : rewriteLine bp orig l = trim l := by
              simp only [rewriteLine]
              rw [if_neg h2, if_neg h3, if_neg h4, if_pos h6, if_pos horigE]
            rw [hx]
            have ht2 : trim (trim l) = trim l := trim_idem l
            simp only [rewriteLine]
            rw [ht2, if_neg h2, if_neg h3, if_neg h4, if_pos h6, if_pos horigE]
          · have horigne : orig ≠ [] := by
              intro h0
              rw [h0] at horigP
              simp [List.isPrefixOf] at horigP
            have hx : rewriteLine bp orig l = orig ++ trim l := by
              simp only [rewriteLine]
              rw [if_neg h2, if_neg h3, if_neg h4, if_pos h6, if_neg horigne]
            rw [hx]
            have hhttp : ("http".data).isPrefixOf (trim (orig ++ trim l)) = true :=
              trim_append_http horigP
            have hdd : trim (orig ++ trim l) ≠ discontLit := trim_ne_discont_of_http hhttp
            simp only [rewriteLine]
            rw [if_neg hdd, if_pos (by rw [hhttp]; simp)]
        · rcases hbp with hbpE | hbpP
          · have hx : rewriteLine bp orig l = trim l := by
              simp only [rewriteLine]
              rw [if_neg h2, if_neg h3, if_neg h4, if_neg h6, hbpE, List.nil_append]
            rw [hx]
            have ht2 : trim (trim l) = trim l := trim_idem l
            simp only [rewriteLine]
            rw [ht2, if_neg h2, if_neg h3, if_neg h4, if_neg h6, hbpE, List.nil_append]
          · have hx : rewriteLine bp orig l = bp ++ trim l := by
              simp only [rewriteLine]
              rw [if_neg h2, if_neg h3, if_neg h4, if_neg h6]
            rw [hx]
            have hhttp : ("http".data).isPrefixOf (trim (bp ++ trim l)) = true :=
              trim_append_http hbpP
            have hdd : trim (bp ++ trim l) ≠ discontLit := trim_ne_discont_of_http hhttp
            simp only [rewriteLine]
            rw [if_neg hdd, if_pos (by rw [hhttp]; simp)]

theorem processLine_pass2 (kws : List (List Char)) {bp orig : List Char} (hq : '"' ∉ bp)
    (hbp : bp = [] ∨ ("http".data).isPrefixOf bp = true)
    (horig : orig = [] ∨ ("http".data).isPrefixOf orig = true)
    {l : List Char} (hd : trim l ≠ discontLit) (acc : List (List Char)) :
    processLine kws false bp orig acc (rewriteLine bp orig l) =
      rewriteLine bp orig l :: acc := by
  rw [processLine_push (by simp)
    (fun h => trim_rewriteLine_ne_discont hbp horig hd h.2)]
  rw [rewriteLine_idem hq hbp horig l]

theorem filterLoop_allpush (kws : List (List Char)) (hasAd : Bool) (bp orig : List Char) :
    ∀ (ls acc : List (List Char)),
      (∀ x ∈ ls, ∀ acc', processLine kws hasAd bp orig acc' x = x :: acc') →
      filterLoop kws hasAd bp orig acc ls = ls.reverse ++ acc := by
  intro ls
  induction ls with
  | nil =>
    intro acc _
    rw [filterLoop]
    simp
  | cons x ls ih =>
    intro acc hall
    rw [filterLoop, hall x (List.mem_cons_self x ls) acc,
      ih (x :: acc) (fun y hy acc' => hall y (List.mem_cons_of_mem x hy) acc')]
    simp

/-- C4: counterexample.  On the playlist consisting of the single relative line
`adjump/x.ts` (which contains no configured keyword, since the default keyword is
`/adjump/`), filtering against the base URL `http://h/m.m3u8` produces
`http://h/adjump/x.ts` — and the base-path prefixing has *created* an occurrence
of the keyword, so a second run of the filter detects an ad signal and deletes
the line.  `filterM3u8Ad` is therefore not idempotent. -/
theorem claim4_cex :
    filterM3u8Ad defaultKeywords ("adjump/x.ts").data ("http://h/m.m3u8").data =
      ("http://h/adjump/x.ts").data ∧
    filterM3u8Ad defaultKeywords
        (filterM3u8Ad defaultKeywords ("adjump/x.ts").data ("http://h/m.m3u8").data)
        ("http://h/m.m3u8").data = [] ∧
    filterM3u8Ad defaultKeywords
        (filterM3u8Ad defaultKeywords ("adjump/x.ts").data ("http://h/m.m3u8").data)
        ("http://h/m.m3u8").data ≠
      filterM3u8Ad defaultKeywords ("adjump/x.ts").data ("http://h/m.m3u8").data :=
  ⟨rfl, rfl, by decide⟩

/-- C4 (amended): `filterM3u8Ad` is idempotent provided the rewriting cannot
create a fresh ad signal or damage the line structure: the keywords contain no
newline or carriage return, the base URL is an `http(s)` URL containing no
newline and no double quote, no input line ends in a stray `\r`, and neither the
input lines nor the output lines of the first pass contain a keyword. -/
theorem claim4_idempotent_amended (kws : List (List Char)) (content u : List Char)
    (hk : ∀ k ∈ kws, ('\n' ∉ k) ∧ ('\r' ∉ k))
    (hu : ("http".data).isPrefixOf u = true)
    (hun : '\n' ∉ u) (huq : '"' ∉ u)
    (hlines : ∀ l ∈ splitLines content, l.getLast? ≠ some '\r')
    (hfree : ∀ l ∈ splitLines content, ∀ k ∈ kws, containsStr l k = false)
    (hout : ∀ l ∈ filterLinesOut kws content u, ∀ k ∈ kws, containsStr l k = false) :
    filterM3u8Ad kws (filterM3u8Ad kws content u) u = filterM3u8Ad kws content u := by
  have hbpq : '"' ∉ basePathOf u := fun h => huq (mem_basePathOf h)
  have hbpn : '\n' ∉ basePathOf u := fun h => hun (mem_basePathOf h)
  have horign : '\n' ∉ originOf u := by
    intro h
    rcases mem_originOf h with h1 | h1
    · exact hun h1
    · exact absurd h1 (by decide)
  have hbph := basePathOf_http hu
  have horigh := originOf_cases u
  rw [show filterM3u8Ad kws content u =
    joinLines (filterLinesOut kws content u) from rfl]
  by_cases hnil : joinLines (filterLinesOut kws content u) = []
  · rw [hnil]
    rfl
  · have hone : filterLinesOut kws content u ≠ [] := by
      intro h0
      rw [h0] at hnil
      exact hnil rfl
    have hfacts : ∀ x ∈ filterLinesOut kws content u,
        '\n' ∉ x ∧ x.getLast? ≠ some '\r' := by
      intro x hx
      obtain ⟨l, hl, hxeq, _, _⟩ := filterLinesOut_mem hx
      constructor
      · rw [hxeq]
        intro hm
        rcases mem_rewriteLine hm with h | h | h | h | h
        · exact splitLines_no_newline content l hl h
        · exact hbpn h
        · exact horign h
        · exact absurd h (by decide)
        · exact absurd h (by decide)
      · rw [hxeq]
        exact rewriteLine_last_not_cr (hlines l hl)
    have hround : splitLines (joinLines (filterLinesOut kws content u)) =
        filterLinesOut kws content u :=
      splitLines_joinLines _ hone hfacts
    have hAdS2 : hasAdSignal kws (joinLines (filterLinesOut kws content u)) = false := by
      cases hq2 : hasAdSignal kws (joinLines (filterLinesOut kws content u)) with
      | false => rfl
      | true =>
        exfalso
        rw [hasAdSignal] at hq2
        obtain ⟨k, hk', hck⟩ := List.any_eq_true.mp hq2
        obtain ⟨l, hl, hcl⟩ := containsStr_splitLines (hk k hk').1 (hk k hk').2 hck
        rw [hround] at hl
        have hh := hout l hl k hk'
        rw [hcl] at hh
        exact absurd hh (by simp)
    have hAdS1 : hasAdSignal kws content = false := by
      cases hq1 : hasAdSignal kws content with
      | false => rfl
      | true =>
        exfalso
        rw [hasAdSignal] at hq1
        obtain ⟨k, hk', hck⟩ := List.any_eq_true.mp hq1
        obtain ⟨l, hl, hcl⟩ := containsStr_splitLines (hk k hk').1 (hk k hk').2 hck
        have hh := hfree l hl k hk'
        rw [hcl] at hh
        exact absurd hh (by simp)
    have hall : ∀ x ∈ filterLinesOut kws content u, ∀ acc',
        processLine kws false (basePathOf u) (originOf u) acc' x = x :: acc' := by
      intro x hx acc'
      obtain ⟨l, hl, hxeq, _, hNAd⟩ := filterLinesOut_mem hx
      rw [hxeq]
      exact processLine_pass2 kws hbpq hbph horigh (hNAd hAdS1) acc'
    rw [show filterM3u8Ad kws (joinLines (filterLinesOut kws content u)) u =
      joinLines (filterLinesOut kws (joinLines (filterLinesOut kws content u)) u)
      from rfl]
    have hfix : filterLinesOut kws (joinLines (filterLinesOut kws content u)) u =
        filterLinesOut kws content u := by
      rw [filterLinesOut, if_neg hnil, hAdS2, hround,
        filterLoop_allpush kws false (basePathOf u) (originOf u)
          (filterLinesOut kws content u) [] hall]
      simp
    rw [hfix]

/-- C4: witness for the amended idempotence theorem on a concrete two-line
playlist. -/
theorem claim4_witness :
    filterM3u8Ad defaultKeywords
      (filterM3u8Ad defaultKeywords ("#EXTINF:5\nhttp://h/a.ts").data
        ("http://h/m.m3u8").data)
      ("http://h/m.m3u8").data =
    filterM3u8Ad defaultKeywords ("#EXTINF:5\nhttp://h/a.ts").data
      ("http://h/m.m3u8").data :=
  claim4_idempotent_amended defaultKeywords ("#EXTINF:5\nhttp://h/a.ts").data
    ("http://h/m.m3u8").data (by decide) (by decide) (by decide) (by decide)
    (by decide) (by decide) (by decide)

/-- C1: on the playlist `#EXTINF:5, http://h/a.ts, #EXTINF:3,
http://h/adjump/x.ts, #EXTINF:5, http://h/b.ts` with the default keyword
`/adjump/`, the filter removes the ad segment line and the backtrack pops its
`#EXTINF:3` preamble, stopping at the preceding non-metadata line
`http://h/a.ts`; the result (for every base URL) is
`#EXTINF:5, http://h/a.ts, #EXTINF:5, http://h/b.ts`. -/
theorem claim1_scenario (u : List Char) :
    filterM3u8Ad defaultKeywords
      ("#EXTINF:5\nhttp://h/a.ts\n#EXTINF:3\nhttp://h/adjump/x.ts\n#EXTINF:5\nhttp://h/b.ts").data
      u =
    ("#EXTINF:5\nhttp://h/a.ts\n#EXTINF:5\nhttp://h/b.ts").data :=
  rfl

/-- C3: a relative bare line `seg1.ts` against base
`http://cdn.example/path/master.m3u8` is rewritten to the base-path form
`http://cdn.example/path/seg1.ts`; a root-relative line `/seg1.ts` is
rewritten to the origin form `http://cdn.example/seg1.ts`; and any line whose
trimmed text is blank or starts with `http` or `blob:` (and is not removed by
the ad rule) is emitted unchanged by the processing step. -/
theorem claim3_url_rewriting :
    filterM3u8Ad defaultKeywords ("seg1.ts").data
      ("http://cdn.example/path/master.m3u8").data =
      ("http://cdn.example/path/seg1.ts").data ∧
    filterM3u8Ad defaultKeywords ("/seg1.ts").data
      ("http://cdn.example/path/master.m3u8").data =
      ("http://cdn.example/seg1.ts").data ∧
    (∀ kws hasAd bp orig acc line,
      (trim line = [] ∨ ("http".data).isPrefixOf (trim line) = true ∨
        ("blob:".data).isPrefixOf (trim line) = true) →
      ¬(hasAd = true ∧ matchLine kws line = true) →
      processLine kws hasAd bp orig acc line = line :: acc) := by
  refine ⟨rfl, rfl, ?_⟩
  intro kws hasAd bp orig acc line hcase hno
  have hd : trim line ≠ discontLit := by
    rcases hcase with h | h | h
    · rw [h]
      decide
    · intro h0
      rw [h0] at h
      exact absurd h (by decide)
    · intro h0
      rw [h0] at h
      exact absurd h (by decide)
  have hc3 : (trim line = [] || ("http".data).isPrefixOf (trim line) ||
      ("blob:".data).isPrefixOf (trim line)) = true := by
    rcases hcase with h | h | h
    · simp [h]
    · simp [h]
    · simp [h]
  rw [processLine_push hno (fun hh => hd hh.2)]
  have hrl : rewriteLine bp orig line = line := by
    simp only [rewriteLine]
    rw [if_neg hd, if_pos hc3]
  rw [hrl]

/-- C3: witness for the step-level unchanged-line conjunct, on an `http` line
with the ad scan off. -/
theorem claim3_witness :
    processLine defaultKeywords false [] [] [] ("http://h/a.ts").data =
      [("http://h/a.ts").data] :=
  claim3_url_rewriting.2.2 defaultKeywords false [] [] [] ("http://h/a.ts").data
    (Or.inr (Or.inl (by decide))) (by simp)

/-- C6: feeding exactly 4 consecutive fatal network-class events to a fresh
session yields exactly 3 `startLoad` commands, then one user-visible
network-failure report and a `destroy`; the media-error counter stays 0. -/
theorem claim6_retry_bound :
    runHlsErrors (RetryState.mk 0 0)
      (List.replicate 4 (HlsErrorData.mk HlsErrType.network true none)) =
    (RetryState.mk 4 0,
      [HlsCmd.startLoad, HlsCmd.startLoad, HlsCmd.startLoad,
        HlsCmd.report networkErrMsg, HlsCmd.destroy]) := by
  decide

/-- C8 (implicit): for every intercepted load with filtering enabled on a
manifest- or level-class request, the wrapped callback invokes the original
`onSuccess` exactly once; a non-string body, and a string body on which the
filter throws, both reach the original callback unmodified. -/
theorem claim8_hook_containment (adFilter : Bool) (ctype : HlsCtxType)
    (filt : List Char → Option (List Char)) (d : RespData) :
    (interceptedCalls adFilter ctype filt d).length = 1 ∧
    (∀ s, d = RespData.str s → filt s = none →
      interceptedCalls adFilter ctype filt d = [d]) ∧
    (d = RespData.bin → interceptedCalls adFilter ctype filt d = [d]) := by
  refine ⟨rfl, ?_, ?_⟩
  · rintro s rfl hnone
    rw [interceptedCalls, interceptedData]
    split
    · simp [hnone]
    · rfl
  · rintro rfl
    rw [interceptedCalls, interceptedData]
    split
    · rfl
    · rfl

/-- C8: witness — a filter that throws on a manifest-class request leaves the
string body unmodified, and the callback fires once. -/
theorem claim8_witness :
    (interceptedCalls true HlsCtxType.manifest (fun _ => none)
      (RespData.str ("#EXTM3U").data)).length = 1 ∧
    interceptedCalls true HlsCtxType.manifest (fun _ => none)
      (RespData.str ("#EXTM3U").data) = [RespData.str ("#EXTM3U").data] :=
  ⟨(claim8_hook_containment true HlsCtxType.manifest (fun _ => none)
      (RespData.str ("#EXTM3U").data)).1,
    (claim8_hook_containment true HlsCtxType.manifest (fun _ => none)
      (RespData.str ("#EXTM3U").data)).2.1 ("#EXTM3U").data rfl rfl⟩

/-- C7, counterexample: in the degraded fan-out scenario the failing variant's
line in the final master artifact is the *original relative line* `v2.m3u8`,
not its absolute URL `http://h/m/v2.m3u8` — the `catch` branch returns `line`
unchanged, so the claim's "left pointing at its original absolute URL" is
false. -/
theorem claim7_cex :
    (splitLines (c7out.2.getD 2 [])).getD 5 [] = ("v2.m3u8").data ∧
    (splitLines (c7out.2.getD 2 [])).getD 5 [] ≠ ("http://h/m/v2.m3u8").data :=
  ⟨rfl, by decide⟩

/-- C7 (amended): for a master playlist referencing 3 relative variants where
exactly 1 variant's fetch fails, resolution succeeds overall with the master
artifact as entry point, both sibling variants are fetched, ad-filtered,
URL-rewritten and materialized, the failing variant's line is left as its
original (relative) line, and exactly 2 child artifacts plus 1 master artifact
are produced and tracked for cleanup. -/
theorem claim7_fanout_amended :
    c7out.1 = some (Sum.inr (MasterOut.mk (blobName 2)
      [blobName 0, blobName 1, blobName 2])) ∧
    c7out.2.length = 3 ∧
    c7out.2.getD 0 [] = ("#EXTINF:5\nhttp://h/m/seg0.ts").data ∧
    c7out.2.getD 1 [] = ("#EXTINF:5\nhttp://h/m/seg1.ts").data ∧
    (splitLines (c7out.2.getD 2 [])).getD 1 [] = blobName 0 ∧
    (splitLines (c7out.2.getD 2 [])).getD 3 [] = blobName 1 ∧
    (splitLines (c7out.2.getD 2 [])).getD 5 [] = ("v2.m3u8").data :=
  ⟨rfl, rfl, rfl, rfl, rfl, rfl, rfl⟩

end KVideo
